import Mathlib

/-!
Verification of the ontoportal-rag ingestion and retrieval pipelines.

This file gives a shallow embedding, in Lean 4, of the algorithmic core of
the `matportal/ontoportal-rag` repository:

* `src/app/services/indexing_service.py` — deterministic chunk identifiers
  (`uuid5` over `"{task_id}-{i}"`, modelled with a full SHA-1 implementation)
  and the persisted-record construction of `batch_index_chunks`;
* `src/app/services/ontology_sanitizer.py` — the sanitation pipeline
  (`OntologySanitizer.sanitize`) with its three default steps, including
  executable models of the regex rewrites of `LiteralTruncationStep` and
  `LanguageTagFixStep`;
* `src/app/tasks/ontology_processor.py` — `_detect_candidate_formats` and
  `_load_graph_with_fallbacks`;
* `src/app/services/retrieval_service.py` — hybrid search, rerank and
  answer generation with their degradation paths;
* `src/app/services/ontology_sync_service.py` — `_get_current_version` and
  `_process_ontology`.

File contents of the modelled filesystem are plain strings; external
collaborators (Weaviate, Cohere, the LLM, the ROBOT subprocess, rdflib's
parser) are modelled as explicit outcome parameters (`Except`/oracles), so
every caught-exception path of the Python code is an explicit branch here.
-/

namespace OntoRag

/-- Association-list lookup, the model of Python `dict.get(key)` (returns
`none` when the key is absent, mirroring `None`). -/
def alookup (k : String) : List (String × String) → Option String
  | [] => none
  | (k', v) :: rest => if k' = k then some v else alookup k rest

/-- Generic association lookup for richer value types. -/
def alookupG {α : Type} (k : String) : List (String × α) → Option α
  | [] => none
  | (k', v) :: rest => if k' = k then some v else alookupG k rest

/-- The `seen`-set loop used both at the end of `OntologySanitizer.sanitize`
and in `_detect_candidate_formats`: keep the elements not yet seen, in
order, threading the set of already-seen elements. -/
def dedupSeen {α : Type} [DecidableEq α] (seen : List α) : List α → List α
  | [] => []
  | x :: xs => if x ∈ seen then dedupSeen seen xs else x :: dedupSeen (x :: seen) xs

/-- First-seen deduplication: keep the first occurrence of each element,
preserving order. -/
def dedupKeepFirst {α : Type} [DecidableEq α] (l : List α) : List α :=
  dedupSeen [] l

theorem mem_dedupSeen {α : Type} [DecidableEq α] (x : α) :
    ∀ (l : List α) (seen : List α), x ∈ dedupSeen seen l ↔ x ∈ l ∧ x ∉ seen
  | [], seen => by rw [dedupSeen]; simp
  | y :: ys, seen => by
    rw [dedupSeen]
    by_cases hy : y ∈ seen
    · rw [if_pos hy, mem_dedupSeen x ys seen]
      constructor
      · rintro ⟨h1, h2⟩
        exact ⟨List.mem_cons_of_mem y h1, h2⟩
      · rintro ⟨h1, h2⟩
        rcases List.mem_cons.1 h1 with rfl | h1
        · exact absurd hy h2
        · exact ⟨h1, h2⟩
    · rw [if_neg hy]
      by_cases hxy : x = y
      · subst hxy
        simp [hy]
      · simp only [List.mem_cons, hxy, false_or]
        rw [mem_dedupSeen x ys (y :: seen)]
        simp [List.mem_cons, hxy]

theorem mem_dedupKeepFirst {α : Type} [DecidableEq α] (x : α) (l : List α) :
    x ∈ dedupKeepFirst l ↔ x ∈ l := by
  rw [dedupKeepFirst, mem_dedupSeen]
  simp

theorem nodup_dedupSeen {α : Type} [DecidableEq α] :
    ∀ (l : List α) (seen : List α), (dedupSeen seen l).Nodup
  | [], seen => by rw [dedupSeen]; exact List.nodup_nil
  | y :: ys, seen => by
    rw [dedupSeen]
    by_cases hy : y ∈ seen
    · rw [if_pos hy]
      exact nodup_dedupSeen ys seen
    · rw [if_neg hy, List.nodup_cons]
      refine ⟨?_, nodup_dedupSeen ys (y :: seen)⟩
      rw [mem_dedupSeen]
      rintro ⟨-, h2⟩
      exact h2 (List.mem_cons_self y seen)

theorem nodup_dedupKeepFirst {α : Type} [DecidableEq α] (l : List α) :
    (dedupKeepFirst l).Nodup :=
  nodup_dedupSeen l []

theorem sublist_dedupSeen {α : Type} [DecidableEq α] :
    ∀ (l : List α) (seen : List α), (dedupSeen seen l).Sublist l
  | [], seen => by rw [dedupSeen]
  | y :: ys, seen => by
    rw [dedupSeen]
    by_cases hy : y ∈ seen
    · rw [if_pos hy]
      exact (sublist_dedupSeen ys seen).trans (List.sublist_cons_self y ys)
    · rw [if_neg hy]
      exact List.Sublist.cons₂ y (sublist_dedupSeen ys (y :: seen))

theorem sublist_dedupKeepFirst {α : Type} [DecidableEq α] (l : List α) :
    (dedupKeepFirst l).Sublist l :=
  sublist_dedupSeen l []

/-- Split a character list on a separator character (the model of
`str.split(sep)` for a one-character separator). -/
def splitOnChar (sep : Char) : List Char → List (List Char)
  | [] => [[]]
  | c :: cs =>
    let r := splitOnChar sep cs
    if c = sep then [] :: r
    else
      match r with
      | [] => [[c]]
      | g :: gs => (c :: g) :: gs

/-- ASCII lower-casing of one character (the effect of `str.lower()` on the
ASCII inputs relevant here). -/
def charLower (c : Char) : Char :=
  if 'A' ≤ c ∧ c ≤ 'Z' then Char.ofNat (c.toNat + 32) else c

/-- `str.lower()`. -/
def strLower (s : String) : String := String.mk (s.data.map charLower)

/-- `pre` is a prefix of `s` (the model of `str.startswith`). -/
def strStartsWith (s pre : String) : Bool := pre.data.isPrefixOf s.data

/-- The base name of a path: the part after the last `/` (the model of
`pathlib.Path.name`). -/
def baseName (p : String) : String :=
  match (splitOnChar '/' p.data).getLast? with
  | some n => String.mk n
  | none => p

/-- The model of `pathlib.PurePath.suffixes` applied to a file name: empty
when the name ends with a dot, otherwise the dot-prefixed extension parts of
the name with leading dots stripped (e.g. `"a.robot.ttl" ↦ [".robot", ".ttl"]`). -/
def nameSuffixes (name : String) : List String :=
  if name.data.getLast? = some '.' then []
  else
    (splitOnChar '.' (name.data.dropWhile (· = '.'))).tail.map
      (fun g => String.mk ('.' :: g))

/-- `[s.lower() for s in path.suffixes]`, the suffix normalisation used by
the sanitizer steps and by the parser's `.ttl` fast path. -/
def lowerSuffixes (p : String) : List String :=
  (nameSuffixes (baseName p)).map strLower

/-- The model of `pathlib.PurePath.suffix`: the last suffix, or `""`. -/
def nameSuffix (name : String) : String :=
  match (nameSuffixes name).getLast? with
  | some s => s
  | none => ""

/-- The final suffix of a path's base name (Python `path.suffix`). -/
def pathSuffix (p : String) : String := nameSuffix (baseName p)

/-- `path.with_suffix(s)`: drop the final suffix and append `s`. -/
def withSuffix (p : String) (s : String) : String :=
  String.mk (p.data.take (p.data.length - (pathSuffix p).data.length)) ++ s

/-! ### Decimal rendering of chunk indices

`IndexingService.batch_index_chunks` interpolates the chunk index into the
f-string `f"{task_id}-{i}"`, i.e. renders `i` in decimal. -/

/-- The ASCII digit character for `d` (`0 ↦ '0'`, …, `9 ↦ '9'`). -/
def digitChar (d : Nat) : Char := Char.ofNat (48 + d)

/-- Least-significant-first decimal digits of `n` (empty for `0`). -/
def toDigitsRev : Nat → List Nat
  | 0 => []
  | n + 1 => ((n + 1) % 10) :: toDigitsRev ((n + 1) / 10)
  decreasing_by exact Nat.div_lt_self (Nat.succ_pos n) (by omega)

/-- Evaluation of a least-significant-first digit list. -/
def ofDigitsRev : List Nat → Nat
  | [] => 0
  | d :: ds => d + 10 * ofDigitsRev ds

/-- Decimal rendering of a natural number, the model of Python's `str(i)`. -/
def natRepr (n : Nat) : String :=
  if n = 0 then "0" else String.mk ((toDigitsRev n).reverse.map digitChar)

theorem ofDigitsRev_toDigitsRev : ∀ n : Nat, ofDigitsRev (toDigitsRev n) = n
  | 0 => by rw [toDigitsRev]; rfl
  | n + 1 => by
    rw [toDigitsRev, ofDigitsRev, ofDigitsRev_toDigitsRev ((n + 1) / 10)]
    omega
  decreasing_by exact Nat.div_lt_self (Nat.succ_pos n) (by omega)

theorem toDigitsRev_injective : Function.Injective toDigitsRev := by
  intro a b h
  have := congrArg ofDigitsRev h
  rwa [ofDigitsRev_toDigitsRev, ofDigitsRev_toDigitsRev] at this

theorem toDigitsRev_lt : ∀ n : Nat, ∀ d ∈ toDigitsRev n, d < 10
  | 0 => by intro d hd; rw [toDigitsRev] at hd; cases hd
  | n + 1 => by
    intro d hd
    rw [toDigitsRev] at hd
    rcases List.mem_cons.1 hd with h | h
    · omega
    · exact toDigitsRev_lt ((n + 1) / 10) d h
  decreasing_by exact Nat.div_lt_self (Nat.succ_pos n) (by omega)

theorem toDigitsRev_ne_nil {n : Nat} (hn : n ≠ 0) : toDigitsRev n ≠ [] := by
  cases n with
  | zero => exact absurd rfl hn
  | succ m => rw [toDigitsRev]; exact List.cons_ne_nil _ _

theorem digitChar_toNat {d : Nat} (h : d < 10) : (digitChar d).toNat = 48 + d := by
  interval_cases d <;> rfl

theorem map_digitChar_inj :
    ∀ (l1 l2 : List Nat), (∀ d ∈ l1, d < 10) → (∀ d ∈ l2, d < 10) →
      l1.map digitChar = l2.map digitChar → l1 = l2
  | [], [], _, _, _ => rfl
  | [], _ :: _, _, _, h => absurd h (by simp)
  | _ :: _, [], _, _, h => absurd h (by simp)
  | x :: xs, y :: ys, h1, h2, h => by
    simp only [List.map_cons, List.cons.injEq] at h
    have hx : x < 10 := h1 x (List.mem_cons_self x xs)
    have hy : y < 10 := h2 y (List.mem_cons_self y ys)
    have hxy : x = y := by
      have := congrArg Char.toNat h.1
      rw [digitChar_toNat hx, digitChar_toNat hy] at this
      omega
    have hxs : xs = ys :=
      map_digitChar_inj xs ys (fun d hd => h1 d (List.mem_cons_of_mem x hd))
        (fun d hd => h2 d (List.mem_cons_of_mem y hd)) h.2
    rw [hxy, hxs]

theorem digits_eq_of_natRepr_eq {a b : Nat} (ha : a ≠ 0) (hb : b ≠ 0)
    (h : natRepr a = natRepr b) : toDigitsRev a = toDigitsRev b := by
  unfold natRepr at h
  rw [if_neg ha, if_neg hb] at h
  have hdata : (toDigitsRev a).reverse.map digitChar
      = (toDigitsRev b).reverse.map digitChar := congrArg String.data h
  have hrev : (toDigitsRev a).reverse = (toDigitsRev b).reverse :=
    map_digitChar_inj _ _
      (fun d hd => toDigitsRev_lt a d (List.mem_reverse.1 hd))
      (fun d hd => toDigitsRev_lt b d (List.mem_reverse.1 hd)) hdata
  exact List.reverse_injective hrev

theorem natRepr_ne_zero_repr {b : Nat} (hb : b ≠ 0) : natRepr b ≠ "0" := by
  intro h
  unfold natRepr at h
  rw [if_neg hb] at h
  have hdata : (toDigitsRev b).reverse.map digitChar = ['0'] := congrArg String.data h
  have h0 : ([0] : List Nat).map digitChar = ['0'] := rfl
  have hrev : (toDigitsRev b).reverse = [0] :=
    map_digitChar_inj _ _
      (fun d hd => toDigitsRev_lt b d (List.mem_reverse.1 hd))
      (by intro d hd; simp at hd; omega) (hdata.trans h0.symm)
  have hdig : toDigitsRev b = [0] := by
    have := congrArg List.reverse hrev
    simpa using this
  apply hb
  have := congrArg ofDigitsRev hdig
  rwa [ofDigitsRev_toDigitsRev] at this

theorem natRepr_injective : Function.Injective natRepr := by
  intro a b h
  by_cases ha : a = 0 <;> by_cases hb : b = 0
  · omega
  · exfalso
    exact natRepr_ne_zero_repr hb (by rw [← h, ha]; rfl)
  · exfalso
    exact natRepr_ne_zero_repr ha (by rw [h, hb]; rfl)
  · exact toDigitsRev_injective (digits_eq_of_natRepr_eq ha hb h)

/-! ### SHA-1 and RFC 4122 uuid5

`batch_index_chunks` derives the persisted identifier with
`uuid.uuid5(uuid.NAMESPACE_URL, f"{task_id}-{i}")`.  `uuid5` is the SHA-1 of
(namespace bytes ++ UTF-8 name), truncated to 16 bytes with the version and
variant bits forced.  Bytes are `Nat < 256`; 32-bit words are `Nat` reduced
`% 2^32`.  -/

/-- Reduction of a `Nat` to a 32-bit word. -/
def w32 (n : Nat) : Nat := n % 4294967296

/-- 32-bit left rotation. -/
def rotl (k n : Nat) : Nat := w32 ((n <<< k) ||| (n >>> (32 - k)))

/-- UTF-8 encoding of one character (RFC 3629). -/
def utf8Char (c : Char) : List Nat :=
  let n := c.toNat
  if n < 0x80 then [n]
  else if n < 0x800 then
    [0xC0 ||| (n >>> 6), 0x80 ||| (n &&& 0x3F)]
  else if n < 0x10000 then
    [0xE0 ||| (n >>> 12), 0x80 ||| ((n >>> 6) &&& 0x3F), 0x80 ||| (n &&& 0x3F)]
  else
    [0xF0 ||| (n >>> 18), 0x80 ||| ((n >>> 12) &&& 0x3F),
     0x80 ||| ((n >>> 6) &&& 0x3F), 0x80 ||| (n &&& 0x3F)]

/-- UTF-8 encoding of a string (the model of `str.encode("utf-8")`). -/
def utf8Encode (s : String) : List Nat := (s.data.map utf8Char).flatten

/-- Big-endian byte rendering of `n` on `k` bytes. -/
def bytesBE (k : Nat) (n : Nat) : List Nat :=
  (List.range k).map (fun i => (n >>> (8 * (k - 1 - i))) &&& 0xFF)

/-- SHA-1 padding: append `0x80`, zeros to 56 mod 64, and the 64-bit
big-endian bit length. -/
def sha1Pad (msg : List Nat) : List Nat :=
  let len := msg.length
  let zeros := (119 - (len % 64)) % 64
  msg ++ [0x80] ++ List.replicate zeros 0 ++ bytesBE 8 ((len * 8) % 18446744073709551616)

/-- Split a byte list into 64-byte blocks. -/
def chunks64 : List Nat → List (List Nat)
  | [] => []
  | x :: xs => (x :: xs).take 64 :: chunks64 ((x :: xs).drop 64)
  termination_by l => l.length
  decreasing_by
    simp only [List.length_drop, List.length_cons]
    omega

/-- The 16 big-endian 32-bit words of one block. -/
def blockWords (b : List Nat) : List Nat :=
  (List.range 16).map (fun i =>
    ((b.getD (4 * i) 0) <<< 24) ||| ((b.getD (4 * i + 1) 0) <<< 16) |||
    ((b.getD (4 * i + 2) 0) <<< 8) ||| (b.getD (4 * i + 3) 0))

/-- Message-schedule extension, carried newest-word-first:
`W[i] = rotl 1 (W[i-3] xor W[i-8] xor W[i-14] xor W[i-16])`. -/
def extendWordsRev (rws : List Nat) : Nat → List Nat
  | 0 => rws
  | k + 1 =>
    extendWordsRev
      (rotl 1 ((rws.getD 2 0) ^^^ (rws.getD 7 0) ^^^ (rws.getD 13 0) ^^^ (rws.getD 15 0)) :: rws)
      k

/-- The 80 schedule words of a block, oldest first. -/
def scheduleWords (b : List Nat) : List Nat :=
  (extendWordsRev (blockWords b).reverse 64).reverse

/-- One SHA-1 round: `i` is the round index, `wi` the schedule word. -/
def sha1Round (st : Nat × Nat × Nat × Nat × Nat) (iw : Nat × Nat) :
    Nat × Nat × Nat × Nat × Nat :=
  let (a, b, c, d, e) := st
  let (i, wi) := iw
  let f :=
    if i < 20 then (b &&& c) ||| ((b ^^^ 0xFFFFFFFF) &&& d)
    else if i < 40 then b ^^^ c ^^^ d
    else if i < 60 then (b &&& c) ||| (b &&& d) ||| (c &&& d)
    else b ^^^ c ^^^ d
  let k :=
    if i < 20 then 0x5A827999
    else if i < 40 then 0x6ED9EBA1
    else if i < 60 then 0x8F1BBCDC
    else 0xCA62C1D6
  let temp := w32 (rotl 5 a + f + e + k + wi)
  (temp, a, rotl 30 b, c, d)

/-- Process one 64-byte block into the running hash state. -/
def sha1Block (h : Nat × Nat × Nat × Nat × Nat) (b : List Nat) :
    Nat × Nat × Nat × Nat × Nat :=
  let (h0, h1, h2, h3, h4) := h
  let (a, b', c, d, e) :=
    ((scheduleWords b).enum.foldl sha1Round (h0, h1, h2, h3, h4))
  (w32 (h0 + a), w32 (h1 + b'), w32 (h2 + c), w32 (h3 + d), w32 (h4 + e))

/-- SHA-1 digest of a byte list, as 20 bytes. -/
def sha1 (msg : List Nat) : List Nat :=
  let (h0, h1, h2, h3, h4) :=
    (chunks64 (sha1Pad msg)).foldl sha1Block
      (0x67452301, 0xEFCDAB89, 0x98BADCFE, 0x10325476, 0xC3D2E1F0)
  bytesBE 4 h0 ++ bytesBE 4 h1 ++ bytesBE 4 h2 ++ bytesBE 4 h3 ++ bytesBE 4 h4

/-- The 16 bytes of `uuid.NAMESPACE_URL` (6ba7b811-9dad-11d1-80b4-00c04fd430c8). -/
def namespaceURLBytes : List Nat :=
  [0x6b, 0xa7, 0xb8, 0x11, 0x9d, 0xad, 0x11, 0xd1,
   0x80, 0xb4, 0x00, 0xc0, 0x4f, 0xd4, 0x30, 0xc8]

/-- Big-endian value of a byte list. -/
def bytesToNat (l : List Nat) : Nat := l.foldl (fun a b => a * 256 + b) 0

/-- The 16 identifier bytes of `uuid.uuid5(ns, name)`: SHA-1 of namespace
bytes ++ UTF-8 name, truncated to 16 bytes, with the RFC 4122 version (5)
and variant bits forced. -/
def uuid5Bytes (ns : List Nat) (name : String) : List Nat :=
  let d := (sha1 (ns ++ utf8Encode name)).take 16
  let d1 := d.set 6 (((d.getD 6 0) &&& 0x0F) ||| 0x50)
  d1.set 8 (((d1.getD 8 0) &&& 0x3F) ||| 0x80)

/-- `uuid.uuid5(ns, name)` as its 128-bit integer value. -/
def uuid5 (ns : List Nat) (name : String) : Nat := bytesToNat (uuid5Bytes ns name)

/-! ### IndexingService.batch_index_chunks
(src/app/services/indexing_service.py, lines 60-82) -/

/-- A LangChain `Document` chunk: page content plus metadata entries such as
`"Header 1"`. -/
structure Chunk where
  pageContent : String
  metadata : List (String × String)
deriving DecidableEq, Repr

/-- The `data_object` persisted for one chunk. -/
structure IndexedObject where
  content : String
  ontology_id : String
  version : String
  header : String
  metadata : List (String × String)
deriving DecidableEq, Repr

/-- The uuid5 name for a chunk: the f-string `f"{task_id}-{i}"`. -/
def uuidName (taskId : String) (i : Nat) : String := taskId ++ "-" ++ natRepr i

/-- The persisted identifier of chunk `i` of task `taskId`:
`uuid.uuid5(uuid.NAMESPACE_URL, f"{task_id}-{i}")`. -/
def chunkUUID (taskId : String) (i : Nat) : Nat :=
  uuid5 namespaceURLBytes (uuidName taskId i)

/-- Python's string `or`: the left operand if non-empty (truthy), else the
right operand. -/
def pyOrStr (a b : String) : String := if a = "" then b else a

/-- The `header` field built by `batch_index_chunks`:
`chunk.metadata.get("Header 1", "") or … or chunk.metadata.get("Header 3", "")`. -/
def headerOf (c : Chunk) : String :=
  pyOrStr ((alookup "Header 1" c.metadata).getD "")
    (pyOrStr ((alookup "Header 2" c.metadata).getD "")
      ((alookup "Header 3" c.metadata).getD ""))

/-- The spec's description of the header field ("the first non-empty
header-context value, preferring the shallowest level", empty when none):
stated from the spec's words, to be compared with `headerOf`. -/
def headerFirstNonEmpty (c : Chunk) : String :=
  match ((["Header 1", "Header 2", "Header 3"].map
      (fun k => (alookup k c.metadata).getD "")).filter (· ≠ "")).head? with
  | some h => h
  | none => ""

/-- The enumerate loop of `batch_index_chunks`: each chunk is persisted under
its deterministic identifier. -/
def batchIndexChunksGo (oid ver : String) (md : List (String × String))
    (taskId : String) : Nat → List Chunk → List (Nat × IndexedObject)
  | _, [] => []
  | i, c :: cs =>
    (chunkUUID taskId i,
      { content := c.pageContent, ontology_id := oid, version := ver,
        header := headerOf c, metadata := md }) ::
      batchIndexChunksGo oid ver md taskId (i + 1) cs

/-- `IndexingService.batch_index_chunks`: the batch of (identifier, record)
pairs upserted for a chunk list. -/
def batchIndexChunks (chunks : List Chunk) (oid ver : String)
    (md : List (String × String)) (taskId : String) : List (Nat × IndexedObject) :=
  batchIndexChunksGo oid ver md taskId 0 chunks

theorem headerOf_eq_firstNonEmpty (c : Chunk) : headerOf c = headerFirstNonEmpty c := by
  unfold headerOf headerFirstNonEmpty pyOrStr
  by_cases h1 : (alookup "Header 1" c.metadata).getD "" = "" <;>
    by_cases h2 : (alookup "Header 2" c.metadata).getD "" = "" <;>
      by_cases h3 : (alookup "Header 3" c.metadata).getD "" = "" <;>
        simp [h1, h2, h3]

theorem batchIndexChunksGo_map_fst (oid ver : String) (md : List (String × String))
    (taskId : String) :
    ∀ (cs : List Chunk) (i : Nat),
      (batchIndexChunksGo oid ver md taskId i cs).map Prod.fst
        = (List.range' i cs.length).map (chunkUUID taskId)
  | [], i => rfl
  | c :: cs, i => by
    rw [batchIndexChunksGo, List.map_cons, List.length_cons, List.range'_succ,
      List.map_cons, batchIndexChunksGo_map_fst oid ver md taskId cs (i + 1)]

theorem batchIndexChunksGo_map_header (oid ver : String) (md : List (String × String))
    (taskId : String) :
    ∀ (cs : List Chunk) (i : Nat),
      (batchIndexChunksGo oid ver md taskId i cs).map (fun p => p.2.header)
        = cs.map headerFirstNonEmpty
  | [], _ => rfl
  | c :: cs, i => by
    rw [batchIndexChunksGo, List.map_cons, List.map_cons,
      batchIndexChunksGo_map_header oid ver md taskId cs (i + 1),
      headerOf_eq_firstNonEmpty]

/-! #### Bounds for the identifier space -/

theorem bytesBE_mem_lt {k n b : Nat} (hb : b ∈ bytesBE k n) : b < 256 := by
  unfold bytesBE at hb
  rcases List.mem_map.1 hb with ⟨i, _, rfl⟩
  have : (n >>> (8 * (k - 1 - i))) &&& 0xFF ≤ 0xFF := Nat.and_le_right
  omega

theorem sha1_mem_lt {msg : List Nat} {b : Nat} (hb : b ∈ sha1 msg) : b < 256 := by
  unfold sha1 at hb
  rcases hfold : (chunks64 (sha1Pad msg)).foldl sha1Block
      (0x67452301, 0xEFCDAB89, 0x98BADCFE, 0x10325476, 0xC3D2E1F0) with
    ⟨h0, h1, h2, h3, h4⟩
  rw [hfold] at hb
  simp only [List.mem_append] at hb
  rcases hb with (((hb | hb) | hb) | hb) | hb <;> exact bytesBE_mem_lt hb

theorem maskOr_lt (x m v : Nat) (hm : m < 256) (hv : v < 256) :
    (x &&& m) ||| v < 256 := by
  have hx : x &&& m ≤ m := Nat.and_le_right
  exact Nat.or_lt_two_pow (n := 8) (by omega) (by omega)

theorem uuid5Bytes_mem_lt {ns : List Nat} {name : String} {b : Nat}
    (hb : b ∈ uuid5Bytes ns name) : b < 256 := by
  unfold uuid5Bytes at hb
  rcases List.mem_or_eq_of_mem_set hb with hb1 | rfl
  · rcases List.mem_or_eq_of_mem_set hb1 with hb2 | rfl
    · exact sha1_mem_lt (List.mem_of_mem_take hb2)
    · exact maskOr_lt _ _ _ (by norm_num) (by norm_num)
  · exact maskOr_lt _ _ _ (by norm_num) (by norm_num)

theorem bytesToNat_lt : ∀ (l : List Nat) (acc : Nat), (∀ b ∈ l, b < 256) →
    l.foldl (fun a b => a * 256 + b) acc < (acc + 1) * 256 ^ l.length
  | [], acc, _ => by simp
  | b :: bs, acc, h => by
    rw [List.foldl_cons, List.length_cons]
    have hb : b < 256 := h b (List.mem_cons_self b bs)
    have ih := bytesToNat_lt bs (acc * 256 + b) (fun x hx => h x (List.mem_cons_of_mem b hx))
    calc (b :: bs).tail.foldl (fun a b => a * 256 + b) (acc * 256 + b)
        < (acc * 256 + b + 1) * 256 ^ bs.length := ih
      _ ≤ ((acc + 1) * 256) * 256 ^ bs.length := by
          have : acc * 256 + b + 1 ≤ (acc + 1) * 256 := by omega
          exact Nat.mul_le_mul_right _ this
      _ = (acc + 1) * 256 ^ (bs.length + 1) := by ring

theorem uuid5_lt (ns : List Nat) (name : String) :
    uuid5 ns name < 256 ^ (uuid5Bytes ns name).length := by
  have := bytesToNat_lt (uuid5Bytes ns name) 0 (fun b hb => uuid5Bytes_mem_lt hb)
  simpa [uuid5, bytesToNat] using this

theorem sha1_length (msg : List Nat) : (sha1 msg).length = 20 := by
  unfold sha1
  rcases hfold : (chunks64 (sha1Pad msg)).foldl sha1Block
      (0x67452301, 0xEFCDAB89, 0x98BADCFE, 0x10325476, 0xC3D2E1F0) with
    ⟨h0, h1, h2, h3, h4⟩
  simp [bytesBE]

theorem uuid5Bytes_length (ns : List Nat) (name : String) :
    (uuid5Bytes ns name).length = 16 := by
  unfold uuid5Bytes
  simp [sha1_length]

theorem namespaceURLBytes_lt : ∀ x ∈ namespaceURLBytes, x < 256 := by
  intro x hx
  unfold namespaceURLBytes at hx
  fin_cases hx <;> norm_num

theorem chunkUUID_lt (taskId : String) (i : Nat) :
    chunkUUID taskId i < 2 ^ 128 := by
  have := uuid5_lt namespaceURLBytes (uuidName taskId i)
  rw [uuid5Bytes_length] at this
  calc chunkUUID taskId i < 256 ^ 16 := this
    _ = 2 ^ 128 := by norm_num

theorem string_data_inj {s t : String} (h : s.data = t.data) : s = t := by
  cases s; cases t; exact congrArg String.mk h

theorem uuidName_injective (taskId : String) : Function.Injective (uuidName taskId) := by
  intro a b h
  apply natRepr_injective
  have hd := congrArg String.data h
  rw [uuidName, uuidName, String.data_append, String.data_append,
    String.data_append, String.data_append] at hd
  exact string_data_inj (List.append_cancel_left hd)

/-- C1 (counterexample): as literally stated — "for every task_id string and
every chunk index, distinct chunk indices under the same task identifier
always receive distinct identifiers" — the claim is false: the identifier
`uuid5(NAMESPACE_URL, f"{task_id}-{i}")` lives in a space of at most `2^128`
values, while the chunk index ranges over all naturals, so under any fixed
task identifier (here `""`) some two distinct chunk indices must share an
identifier. -/
theorem chunkUUID_not_injective_over_all_indices :
    ¬ (∀ (taskId : String) (i j : Nat), i ≠ j →
        chunkUUID taskId i ≠ chunkUUID taskId j) := by
  intro h
  obtain ⟨i, j, hne, heq⟩ :=
    Finite.exists_ne_map_eq_of_infinite
      (fun i : Nat => (⟨chunkUUID "" i, chunkUUID_lt "" i⟩ : Fin (2 ^ 128)))
  exact h "" i j hne (congrArg Fin.val heq)

/-- C1 (amended): the persisted identifier of an indexed chunk is a pure
deterministic function of `(task_id, chunk_index)` — the identifier list of
`batch_index_chunks` is exactly `chunkUUID taskId` applied to `0,…,n-1`,
independent of chunk contents and metadata, so indexing the same
`(task_id, chunk_index)` twice always computes the same identifier; and
distinct chunk indices under the same task identifier always receive
distinct uuid5 *name* inputs (`f"{task_id}-{i}"` is injective in `i`), the
identifier being uuid5 of that name. -/
theorem batch_identifiers_deterministic :
    (∀ (chunks : List Chunk) (oid ver : String) (md : List (String × String))
        (taskId : String),
      (batchIndexChunks chunks oid ver md taskId).map Prod.fst
        = (List.range chunks.length).map (chunkUUID taskId))
    ∧ (∀ taskId : String, Function.Injective (uuidName taskId))
    ∧ (∀ (taskId : String) (i : Nat),
        chunkUUID taskId i = uuid5 namespaceURLBytes (uuidName taskId i)) := by
  refine ⟨?_, uuidName_injective, fun _ _ => rfl⟩
  intro chunks oid ver md taskId
  rw [batchIndexChunks, batchIndexChunksGo_map_fst, List.range_eq_range']

/-- Witness for `batch_identifiers_deterministic` at concrete inputs. -/
theorem batch_identifiers_deterministic_witness :
    (batchIndexChunks [⟨"body", []⟩] "onto" "v1" [] "task").map Prod.fst
        = (List.range 1).map (chunkUUID "task")
    ∧ (3 : Nat) = 3
    ∧ chunkUUID "task" 0 = uuid5 namespaceURLBytes (uuidName "task" 0) :=
  ⟨batch_identifiers_deterministic.1 [⟨"body", []⟩] "onto" "v1" [] "task",
   batch_identifiers_deterministic.2.1 "task" rfl,
   batch_identifiers_deterministic.2.2 "task" 0⟩

/-- C9: for every chunk persisted by `batch_index_chunks`, the stored
`header` field is the first non-empty value among the chunk's `Header 1`,
`Header 2` and `Header 3` metadata entries, in that order, and `""` when all
three are absent or empty. -/
theorem batch_header_is_first_nonempty :
    ∀ (chunks : List Chunk) (oid ver : String) (md : List (String × String))
      (taskId : String),
      (batchIndexChunks chunks oid ver md taskId).map (fun p => p.2.header)
        = chunks.map headerFirstNonEmpty :=
  fun chunks oid ver md taskId =>
    batchIndexChunksGo_map_header oid ver md taskId chunks 0

/-! ### _detect_candidate_formats
(src/app/tasks/ontology_processor.py, lines 67-98) -/

/-- Python's whitespace set for `str.strip`/`str.lstrip` and `re` `\s` on
text (the ASCII part plus the common Unicode whitespace code points). -/
def isPySpace (c : Char) : Bool :=
  c = ' ' || c = '\t' || c = '\n' || c = '\x0b' || c = '\x0c' || c = '\r' ||
  c = '\x1c' || c = '\x1d' || c = '\x1e' || c = '\x1f' ||
  c = '\x85' || c = '\xa0' || c = ' ' ||
  (' ' ≤ c && c ≤ ' ') ||
  c = ' ' || c = ' ' || c = ' ' || c = ' ' || c = '　'

/-- `str.lstrip()`. -/
def pyLStrip (s : String) : String := String.mk (s.data.dropWhile isPySpace)

/-- Whether `needle` occurs as a contiguous subsequence of `hay`
(Python's `needle in hay`). -/
def listContainsSeq (needle : List Char) : List Char → Bool
  | [] => needle.isEmpty
  | c :: cs => needle.isPrefixOf (c :: cs) || listContainsSeq needle cs

/-- Python `"sub" in s`. -/
def strContains (s sub : String) : Bool := listContainsSeq sub.data s.data

/-- The extension part of `os.path.splitext`: everything from the last dot
on, unless all the characters before the last dot are dots. -/
def splitextExt (name : String) : String :=
  let cs := name.data
  let rts := cs.reverse.takeWhile (· ≠ '.')
  if rts.length = cs.length then ""
  else
    let pre := cs.take (cs.length - rts.length - 1)
    if pre.any (· ≠ '.') then String.mk ('.' :: rts.reverse) else ""

/-- Modelled from rdflib's `SUFFIX_FORMAT_MAP` (external library): the
extension-to-format table consulted by `rdflib.util.guess_format`. -/
def suffixFormatMap : List (String × String) :=
  [("xml", "xml"), ("rdf", "xml"), ("owl", "xml"), ("n3", "n3"),
   ("ttl", "turtle"), ("nt", "nt"), ("trix", "trix"), ("xhtml", "rdfa"),
   ("html", "rdfa"), ("svg", "rdfa"), ("nq", "nquads"), ("trig", "trig"),
   ("json", "json-ld"), ("jsonld", "json-ld"), ("hext", "hext")]

/-- The map key used by `rdflib.util._get_ext`: the lower-cased extension
with its leading dot stripped. -/
def guessExtKey (fpath : String) : String :=
  let ext := strLower (splitextExt fpath)
  if strStartsWith ext "." then String.mk (ext.data.drop 1) else ext

/-- Modelled from `rdflib.util.guess_format` (external library): look the
lower-cased extension (dot stripped) up in the suffix map, falling back to
the whole lower-cased name. -/
def guessFormat (fpath : String) : Option String :=
  match alookup (guessExtKey fpath) suffixFormatMap with
  | some v => some v
  | none => alookup (strLower fpath) suffixFormatMap

/-- The first 500 characters of the candidate file, lower-cased — the
content sniffing window of `_detect_candidate_formats`. -/
def sniffHead (content : String) : String :=
  String.mk ((content.data.take 500).map charLower)

/-- The candidate format list of `_detect_candidate_formats` before the
`seen`-set deduplication: extension guess, then content-sniffed formats,
then the fixed fallback list. -/
def detectBaseFormats (path content : String) : List String :=
  let head := sniffHead content
  (match guessFormat (baseName path) with
    | some g => [g]
    | none => [])
  ++ (if strStartsWith (pyLStrip head) "<?xml" then ["xml"] else [])
  ++ (if strContains head "@prefix" || strStartsWith (pyLStrip head) "prefix"
      then ["turtle"] else [])
  ++ (if strStartsWith (pyLStrip head) "\x7b\"@context\"" then ["json-ld"] else [])
  ++ ["xml", "turtle", "n3", "nt", "trig"]

/-- The `ordered_formats` list of `_detect_candidate_formats`: the base list
deduplicated preserving first-seen order, skipping falsy entries. -/
def orderedFormats (path content : String) : List String :=
  dedupKeepFirst ((detectBaseFormats path content).filter (· ≠ ""))

/-- `_detect_candidate_formats`: the ordered format list, with `"xml"`
dropped when the file is `.ttl`-suffixed and both `"turtle"` and `"xml"`
survived deduplication. -/
def detectCandidateFormats (path content : String) : List String :=
  if "turtle" ∈ orderedFormats path content ∧ ".ttl" ∈ lowerSuffixes path
      ∧ "xml" ∈ orderedFormats path content then
    (orderedFormats path content).filter (· ≠ "xml")
  else orderedFormats path content

theorem alookup_mem_values {k v : String} :
    ∀ {l : List (String × String)}, alookup k l = some v → v ∈ l.map Prod.snd
  | [], h => by rw [alookup] at h; cases h
  | (k', v') :: rest, h => by
    rw [alookup] at h
    by_cases hk : k' = k
    · rw [if_pos hk] at h
      exact Option.some.inj h ▸ List.mem_cons_self _ _
    · rw [if_neg hk] at h
      exact List.mem_cons_of_mem _ (alookup_mem_values h)

theorem guessFormat_ne_empty {fpath v : String} (h : guessFormat fpath = some v) :
    v ≠ "" := by
  unfold guessFormat at h
  rcases halo : alookup (guessExtKey fpath) suffixFormatMap with _ | w
  · rw [halo] at h
    simp only at h
    have hm := alookup_mem_values h
    fin_cases hm <;> decide
  · rw [halo] at h
    simp only at h
    have hv : w = v := Option.some.inj h
    subst hv
    have hm := alookup_mem_values halo
    fin_cases hm <;> decide

theorem detectBaseFormats_ne_empty {path content : String} :
    ∀ f ∈ detectBaseFormats path content, f ≠ "" := by
  intro f hf
  unfold detectBaseFormats at hf
  simp only [List.mem_append, List.mem_cons] at hf
  rcases hf with (((hf | hf) | hf) | hf) | hf
  · rcases hg : guessFormat (baseName path) with _ | g
    · rw [hg] at hf; cases hf
    · rw [hg] at hf
      simp only [List.mem_singleton] at hf
      exact hf ▸ guessFormat_ne_empty hg
  · split at hf <;> simp_all
  · split at hf <;> simp_all
  · split at hf <;> simp_all
  · rcases hf with h | h | h | h | h <;> simp_all

/-- C6: the candidate format list of `_detect_candidate_formats` is always
duplicate-free and preserves first-seen order of the base sequence
(extension guess, then content-sniffed formats, then the fixed fallback
`xml, turtle, n3, nt, trig`): it is a sublist of the base sequence
containing every base entry except possibly `"xml"`; and for a
`.ttl`-suffixed file it never contains `"xml"` when it contains
`"turtle"`. -/
theorem detect_formats_nodup_ordered_ttl_no_xml :
    ∀ (path content : String),
      (detectCandidateFormats path content).Nodup
      ∧ (detectCandidateFormats path content).Sublist (detectBaseFormats path content)
      ∧ (∀ f ∈ detectBaseFormats path content, f ≠ "xml" →
          f ∈ detectCandidateFormats path content)
      ∧ (".ttl" ∈ lowerSuffixes path →
          ¬("turtle" ∈ detectCandidateFormats path content
            ∧ "xml" ∈ detectCandidateFormats path content)) := by
  intro path content
  have hfilterBase : (detectBaseFormats path content).filter (· ≠ "")
      = detectBaseFormats path content :=
    List.filter_eq_self.mpr (fun f hf => decide_eq_true (detectBaseFormats_ne_empty f hf))
  have hordNodup : (orderedFormats path content).Nodup := nodup_dedupKeepFirst _
  have hordSub : (orderedFormats path content).Sublist (detectBaseFormats path content) :=
    (sublist_dedupKeepFirst _).trans (List.filter_sublist _)
  have hordMem : ∀ f ∈ detectBaseFormats path content, f ∈ orderedFormats path content := by
    intro f hf
    rw [orderedFormats, mem_dedupKeepFirst, hfilterBase]
    exact hf
  by_cases hcond : "turtle" ∈ orderedFormats path content ∧ ".ttl" ∈ lowerSuffixes path
      ∧ "xml" ∈ orderedFormats path content
  · rw [detectCandidateFormats, if_pos hcond]
    refine ⟨hordNodup.filter (fun f => f ≠ "xml"),
      ((List.filter_sublist _).trans hordSub), ?_, ?_⟩
    · intro f hf hxml
      rw [List.mem_filter]
      exact ⟨hordMem f hf, decide_eq_true hxml⟩
    · intro _ hmem
      simp only [List.mem_filter] at hmem
      exact absurd rfl (of_decide_eq_true hmem.2.2)
  · rw [detectCandidateFormats, if_neg hcond]
    refine ⟨hordNodup, hordSub, fun f hf _ => hordMem f hf, ?_⟩
    intro httl hmem
    exact hcond ⟨hmem.1, httl, hmem.2⟩

/-- Witness for `detect_formats_nodup_ordered_ttl_no_xml` on a concrete
`.ttl` file. -/
theorem detect_formats_witness :
    "turtle" ∈ detectBaseFormats "x.ttl" "@prefix a: <b> ."
    ∧ "turtle" ∈ detectCandidateFormats "x.ttl" "@prefix a: <b> ."
    ∧ (".ttl" ∈ lowerSuffixes "x.ttl"
        ∧ ¬("turtle" ∈ detectCandidateFormats "x.ttl" "@prefix a: <b> ."
            ∧ "xml" ∈ detectCandidateFormats "x.ttl" "@prefix a: <b> .")) :=
  ⟨by decide,
   (detect_formats_nodup_ordered_ttl_no_xml "x.ttl" "@prefix a: <b> .").2.2.1
     "turtle" (by decide) (by decide),
   ⟨by decide,
    (detect_formats_nodup_ordered_ttl_no_xml "x.ttl" "@prefix a: <b> .").2.2.2
      (by decide)⟩⟩

/-! ### _load_graph_with_fallbacks
(src/app/tasks/ontology_processor.py, lines 21-64)

`rdflib`'s parser is an external collaborator: it is modelled as a function
`parse : path → format → Except E G` fixed per run; the file system behind
content sniffing is `contentOf : path → content`. -/

/-- The outcome of `_load_graph_with_fallbacks`: a parsed graph, the
re-raised last parse exception, or the `ValueError` raised when no
exception was ever recorded. -/
inductive LoadResult (E G : Type) where
  | ok (g : G)
  | parseFailure (e : E)
  | noFormat
deriving DecidableEq

/-- The inner `for fmt in candidate_formats` loop: try each format in order,
returning the first parsed graph, otherwise the final `last_exception`
accumulator. -/
def tryFormatList {E G : Type} (parse : String → String → Except E G) (p : String) :
    List String → Option E → Option E ⊕ G
  | [], last => Sum.inl last
  | f :: fs, _ =>
    match parse p f with
    | .ok g => Sum.inr g
    | .error e => tryFormatList parse p fs (some e)

/-- The formats attempted for one candidate, in order: the turtle fast path
(for `.ttl`-suffixed candidates) followed by the detected candidate
formats. -/
def candFormats (contentOf : String → String) (p : String) : List String :=
  (if ".ttl" ∈ lowerSuffixes p then ["turtle"] else [])
    ++ detectCandidateFormats p (contentOf p)

/-- The outer `for candidate_path in candidate_paths` loop, threading
`last_exception`.  The `.ttl` fast path (try turtle first, recording its
exception, before the detected formats) is exactly `tryFormatList` on
`"turtle" :: detected` — see `fastPath_unfold`. -/
def loadLoop {E G : Type} (parse : String → String → Except E G)
    (contentOf : String → String) :
    List String → Option E → Option E ⊕ G
  | [], last => Sum.inl last
  | p :: ps, last =>
    match tryFormatList parse p (candFormats contentOf p) last with
    | Sum.inr g => Sum.inr g
    | Sum.inl last2 => loadLoop parse contentOf ps last2

/-- The fast path of `_load_graph_with_fallbacks` unfolds from
`tryFormatList`: try turtle, return on success, otherwise record the
exception and fall through to the remaining formats. -/
theorem fastPath_unfold {E G : Type} (parse : String → String → Except E G)
    (p : String) (fmts : List String) (last : Option E) :
    tryFormatList parse p ("turtle" :: fmts) last
      = match parse p "turtle" with
        | .ok g => Sum.inr g
        | .error e => tryFormatList parse p fmts (some e) := rfl

/-- `_load_graph_with_fallbacks` applied to an already-sanitized candidate
list: first parsed graph, else re-raise the last exception, else the
`ValueError` when nothing was attempted. -/
def loadGraphWithFallbacks {E G : Type} (parse : String → String → Except E G)
    (contentOf : String → String) (cands : List String) : LoadResult E G :=
  match loadLoop parse contentOf cands none with
  | Sum.inr g => .ok g
  | Sum.inl (some e) => .parseFailure e
  | Sum.inl none => .noFormat

/-- The (path, format) parse attempts made for one candidate, in order. -/
def attemptSeq (contentOf : String → String) (p : String) : List (String × String) :=
  (candFormats contentOf p).map (fun f => (p, f))

/-- All (path, format) parse attempts over a candidate list, in order. -/
def attempts (contentOf : String → String) (cands : List String) :
    List (String × String) :=
  (cands.map (attemptSeq contentOf)).flatten

theorem turtle_mem_detectCandidateFormats (path content : String) :
    "turtle" ∈ detectCandidateFormats path content := by
  have hbase : "turtle" ∈ detectBaseFormats path content := by
    unfold detectBaseFormats
    simp only [List.mem_append]
    right
    decide
  have hordered : "turtle" ∈ orderedFormats path content := by
    rw [orderedFormats, mem_dedupKeepFirst, List.mem_filter]
    exact ⟨hbase, by decide⟩
  rw [detectCandidateFormats]
  split
  · rw [List.mem_filter]
    exact ⟨hordered, by decide⟩
  · exact hordered

theorem detectCandidateFormats_ne_nil (path content : String) :
    detectCandidateFormats path content ≠ [] :=
  List.ne_nil_of_mem (turtle_mem_detectCandidateFormats path content)

theorem candFormats_ne_nil (contentOf : String → String) (p : String) :
    candFormats contentOf p ≠ [] := by
  unfold candFormats
  intro hnil
  rcases List.append_eq_nil.mp hnil with ⟨-, h2⟩
  exact detectCandidateFormats_ne_nil p (contentOf p) h2

theorem attemptSeq_ne_nil (contentOf : String → String) (p : String) :
    attemptSeq contentOf p ≠ [] := by
  unfold attemptSeq
  simpa using candFormats_ne_nil contentOf p

theorem attempts_ne_nil (contentOf : String → String) {cands : List String}
    (h : cands ≠ []) : attempts contentOf cands ≠ [] := by
  rcases cands with _ | ⟨p, ps⟩
  · exact absurd rfl h
  · unfold attempts
    rw [List.map_cons, List.flatten_cons]
    intro hnil
    rcases List.append_eq_nil.mp hnil with ⟨h1, -⟩
    exact attemptSeq_ne_nil contentOf p h1

theorem tryFormatList_all_fail {E G : Type} (parse : String → String → Except E G)
    (p : String) :
    ∀ (fmts : List String) (last : Option E), fmts ≠ [] →
      (∀ f ∈ fmts, ∃ e, parse p f = Except.error e) →
      ∃ f e, fmts.getLast? = some f ∧ parse p f = Except.error e
        ∧ tryFormatList parse p fmts last = Sum.inl (some e)
  | [], _, hne, _ => absurd rfl hne
  | [f], last, _, hfail => by
    obtain ⟨e, he⟩ := hfail f (List.mem_singleton_self f)
    refine ⟨f, e, rfl, he, ?_⟩
    rw [tryFormatList, he]
    rfl
  | f :: f2 :: fs, last, _, hfail => by
    obtain ⟨e0, he0⟩ := hfail f (List.mem_cons_self f _)
    obtain ⟨f', e', hlast, hpe, htry⟩ :=
      tryFormatList_all_fail parse p (f2 :: fs) (some e0) (List.cons_ne_nil f2 fs)
        (fun x hx => hfail x (List.mem_cons_of_mem f hx))
    refine ⟨f', e', ?_, hpe, ?_⟩
    · rw [List.getLast?_cons_cons]
      exact hlast
    · rw [tryFormatList, he0]
      exact htry

theorem tryFormatList_find_ok {E G : Type} (parse : String → String → Except E G)
    (p : String) :
    ∀ (fmts : List String) (f : String),
      fmts.find? (fun f => (parse p f).isOk) = some f →
      ∃ g, parse p f = Except.ok g
        ∧ ∀ last, tryFormatList parse p fmts last = Sum.inr g
  | [], f, h => by rw [List.find?_nil] at h; cases h
  | f0 :: fs, f, h => by
    rw [List.find?_cons] at h
    rcases hok : parse p f0 with e | g
    · have hnot : ((parse p f0).isOk) = false := by rw [hok]; rfl
      rw [hnot] at h
      obtain ⟨g, hg, htail⟩ := tryFormatList_find_ok parse p fs f h
      refine ⟨g, hg, fun last => ?_⟩
      rw [tryFormatList, hok]
      exact htail (some e)
    · have hyes : ((parse p f0).isOk) = true := by rw [hok]; rfl
      rw [hyes] at h
      have hf : f0 = f := Option.some.inj h
      subst hf
      refine ⟨g, hok, fun last => ?_⟩
      rw [tryFormatList, hok]

theorem tryFormatList_find_none {E G : Type} (parse : String → String → Except E G)
    (p : String) (fmts : List String)
    (h : fmts.find? (fun f => (parse p f).isOk) = none) :
    ∀ f ∈ fmts, ∃ e, parse p f = Except.error e := by
  intro f hf
  have := List.find?_eq_none.mp h f hf
  rcases he : parse p f with e | g
  · exact ⟨e, rfl⟩
  · exact absurd (by rw [he]; rfl) this

theorem loadLoop_step_fail {E G : Type} (parse : String → String → Except E G)
    (contentOf : String → String) (p : String) (ps : List String) (last : Option E)
    (hfail : ∀ f, ∃ e, parse p f = Except.error e) :
    ∃ last2, loadLoop parse contentOf (p :: ps) last = loadLoop parse contentOf ps last2 := by
  obtain ⟨f, e, -, -, htry⟩ :=
    tryFormatList_all_fail parse p (candFormats contentOf p) last
      (candFormats_ne_nil contentOf p) (fun f _ => hfail f)
  refine ⟨some e, ?_⟩
  simp only [loadLoop, htry]

theorem attempts_singleton (contentOf : String → String) (p : String) :
    attempts contentOf [p] = attemptSeq contentOf p := by
  rw [attempts]
  simp

theorem attempts_cons (contentOf : String → String) (p : String) (ps : List String) :
    attempts contentOf (p :: ps) = attemptSeq contentOf p ++ attempts contentOf ps := by
  rw [attempts, attempts, List.map_cons, List.flatten_cons]

theorem loadLoop_all_fail {E G : Type} (parse : String → String → Except E G)
    (contentOf : String → String) :
    ∀ (cands : List String) (last : Option E), cands ≠ [] →
      (∀ p ∈ cands, ∀ f, ∃ e, parse p f = Except.error e) →
      ∃ q f e, (attempts contentOf cands).getLast? = some (q, f)
        ∧ parse q f = Except.error e
        ∧ loadLoop parse contentOf cands last = Sum.inl (some e)
  | [], _, hne, _ => absurd rfl hne
  | [p], last, _, hfail => by
    have hfp : ∀ f, ∃ e, parse p f = Except.error e :=
      hfail p (List.mem_singleton_self p)
    obtain ⟨f, e, hlastf, hpe, htry⟩ :=
      tryFormatList_all_fail parse p (candFormats contentOf p) last
        (candFormats_ne_nil contentOf p) (fun f _ => hfp f)
    refine ⟨p, f, e, ?_, hpe, ?_⟩
    · rw [attempts_singleton, attemptSeq, List.getLast?_map, hlastf]
      rfl
    · simp only [loadLoop, htry]
  | p :: p2 :: ps, last, _, hfail => by
    obtain ⟨last2, hstep⟩ :=
      loadLoop_step_fail parse contentOf p (p2 :: ps) last
        (hfail p (List.mem_cons_self p _))
    obtain ⟨q, f, e, hlast, hpe, hloop⟩ :=
      loadLoop_all_fail parse contentOf (p2 :: ps) last2 (List.cons_ne_nil p2 ps)
        (fun x hx => hfail x (List.mem_cons_of_mem p hx))
    refine ⟨q, f, e, ?_, hpe, ?_⟩
    · rw [attempts_cons, List.getLast?_append_of_ne_nil _
        (attempts_ne_nil contentOf (List.cons_ne_nil p2 ps))]
      exact hlast
    · rw [hstep]
      exact hloop

theorem loadLoop_find_ok {E G : Type} (parse : String → String → Except E G)
    (contentOf : String → String) :
    ∀ (cands : List String) (q f : String),
      (attempts contentOf cands).find? (fun a => (parse a.1 a.2).isOk) = some (q, f) →
      ∃ g, parse q f = Except.ok g
        ∧ ∀ last, loadLoop parse contentOf cands last = Sum.inr g
  | [], q, f, h => by
    rw [attempts] at h
    simp at h
  | p :: ps, q, f, h => by
    rw [attempts_cons, List.find?_append] at h
    rcases hhead : (attemptSeq contentOf p).find? (fun a => (parse a.1 a.2).isOk)
      with _ | a
    · rw [hhead, Option.none_or] at h
      have hdetnone : (candFormats contentOf p).find?
          (fun f2 => (parse p f2).isOk) = none := by
        rw [attemptSeq, List.find?_map] at hhead
        rcases hd : (candFormats contentOf p).find?
            ((fun a => (parse a.1 a.2).isOk) ∘ (fun f2 => (p, f2))) with _ | f0
        · exact hd
        · rw [hd] at hhead
          cases hhead
      have hallfail : ∀ f2 ∈ candFormats contentOf p, ∃ e, parse p f2 = Except.error e :=
        tryFormatList_find_none parse p _ hdetnone
      obtain ⟨g, hg, hloop⟩ := loadLoop_find_ok parse contentOf ps q f h
      refine ⟨g, hg, fun last => ?_⟩
      obtain ⟨f1, e1, -, -, htry⟩ :=
        tryFormatList_all_fail parse p (candFormats contentOf p) last
          (candFormats_ne_nil contentOf p) hallfail
      simp only [loadLoop, htry]
      exact hloop (some e1)
    · rw [hhead] at h
      have ha : a = (q, f) := by simpa using h
      subst ha
      rw [attemptSeq, List.find?_map] at hhead
      rcases hd : (candFormats contentOf p).find?
          ((fun a => (parse a.1 a.2).isOk) ∘ (fun f2 => (p, f2))) with _ | f0
      · rw [hd] at hhead
        cases hhead
      · rw [hd] at hhead
        have hpair : (p, f0) = (q, f) := Option.some.inj hhead
        injection hpair with hq hf
        subst hq
        subst hf
        obtain ⟨g, hg, htryok⟩ := tryFormatList_find_ok parse p _ f0 hd
        refine ⟨g, hg, fun last => ?_⟩
        simp only [loadLoop, htryok last]

/-- C3: `_load_graph_with_fallbacks` on a candidate list: (a) when every
candidate fails under every attempted format, the function re-raises the
parse exception of the chronologically *last* attempt across all candidates
and formats (the last entry of the full attempt sequence); (b) when some
attempt succeeds, the function returns the graph of the *first* successful
attempt in the traversal order, so no later candidate or format is
attempted. -/
theorem load_graph_last_error_or_first_success :
    ∀ {E G : Type} (parse : String → String → Except E G)
      (contentOf : String → String) (cands : List String),
      (cands ≠ [] → (∀ p ∈ cands, ∀ f, ∃ e, parse p f = Except.error e) →
        ∃ q f e, (attempts contentOf cands).getLast? = some (q, f)
          ∧ parse q f = Except.error e
          ∧ loadGraphWithFallbacks parse contentOf cands = LoadResult.parseFailure e)
      ∧ (∀ q f,
          (attempts contentOf cands).find? (fun a => (parse a.1 a.2).isOk) = some (q, f) →
          ∃ g, parse q f = Except.ok g
            ∧ loadGraphWithFallbacks parse contentOf cands = LoadResult.ok g) := by
  intro E G parse contentOf cands
  constructor
  · intro hne hfail
    obtain ⟨q, f, e, hlast, hpe, hloop⟩ :=
      loadLoop_all_fail parse contentOf cands none hne hfail
    refine ⟨q, f, e, hlast, hpe, ?_⟩
    simp only [loadGraphWithFallbacks, hloop]
  · intro q f hfind
    obtain ⟨g, hg, hloop⟩ := loadLoop_find_ok parse contentOf cands q f hfind
    refine ⟨g, hg, ?_⟩
    simp only [loadGraphWithFallbacks, hloop none]

/-- Witness for `load_graph_last_error_or_first_success`: a single `.owl`
candidate whose parses always fail yields the last attempt's error; one
whose parses always succeed yields the first attempt's graph. -/
theorem load_graph_last_error_or_first_success_witness :
    (∃ q f e,
      (attempts (fun _ => "") ["a.owl"]).getLast? = some (q, f)
      ∧ (fun _ _ => (Except.error 7 : Except Nat Nat)) q f = Except.error e
      ∧ loadGraphWithFallbacks (fun _ _ => (Except.error 7 : Except Nat Nat))
          (fun _ => "") ["a.owl"] = LoadResult.parseFailure e)
    ∧ (∃ g, (fun _ _ => (Except.ok 9 : Except Nat Nat)) "a.owl" "xml" = Except.ok g
      ∧ loadGraphWithFallbacks (fun _ _ => (Except.ok 9 : Except Nat Nat))
          (fun _ => "") ["a.owl"] = LoadResult.ok g) :=
  ⟨(load_graph_last_error_or_first_success (fun _ _ => Except.error 7)
      (fun _ => "") ["a.owl"]).1 (by decide)
      (fun p _ f => ⟨7, rfl⟩),
   (load_graph_last_error_or_first_success (fun _ _ => Except.ok 9)
      (fun _ => "") ["a.owl"]).2 "a.owl" "xml" (by decide)⟩

/-! ### RetrievalService
(src/app/services/retrieval_service.py)

The Weaviate, Cohere and LLM providers are external collaborators: each call
is modelled by an explicit outcome (`Except`), and client availability by a
Bool (`self.cohere_client`/`self.llm_chain` being non-`None`). -/

/-- One hybrid-search hit: the properties selected by the weaviate query
(`content`, `ontology_id`, `version`). -/
structure SearchResult where
  content : String
  ontology_id : String
  version : String
deriving DecidableEq, Repr

instance : Inhabited SearchResult := ⟨⟨"", "", ""⟩⟩

/-- One entry of `QueryResponse.sources`.  The weaviate query does not
select a `metadata` property, so `res.get('metadata', {})` is always the
empty dict. -/
structure SourceChunk where
  ontology_id : String
  version : String
  content : String
  metadata : List (String × String)
deriving DecidableEq, Repr

/-- The response of `answer_query`. -/
structure QueryResponse where
  answer : String
  sources : List SourceChunk
deriving DecidableEq, Repr

/-- The fixed no-information answer of `RetrievalService`. -/
def noInfoMsg : String :=
  "I could not find any relevant information in the indexed ontologies to answer your question."

/-- `_hybrid_search`: a provider exception degrades to `[]`; otherwise the
`data.Get` section of the response (class name ↦ hits) is consulted, an
empty/missing section and a missing class key both giving `[]`. -/
def hybridSearch {E : Type}
    (searchOutcome : Except E (List (String × List SearchResult)))
    (className : String) : List SearchResult :=
  match searchOutcome with
  | .error _ => []
  | .ok getSection =>
    if getSection = [] then []
    else (alookupG className getSection).getD []

/-- `_rerank`: without a Cohere client the documents pass through; a raising
call (including an out-of-range index from the provider, which raises
`IndexError` inside the `try`) degrades to the original list; otherwise the
returned indices select `documents[result.index]` in provider order. -/
def rerank {E : Type} (cohereConfigured : Bool) (rerankOutcome : Except E (List Nat))
    (documents : List SearchResult) : List SearchResult :=
  if cohereConfigured = false then documents
  else
    match rerankOutcome with
    | .error _ => documents
    | .ok idxs =>
      if idxs.all (fun k => k < documents.length) then
        idxs.map (fun k => documents.getD k default)
      else documents

/-- The `"\n\n---\n\n"`-joined context of `_generate_answer`. -/
def contextJoin (top : List SearchResult) : String :=
  String.intercalate "\n\n---\n\n" (top.map (·.content))

/-- The no-LLM fallback answer of `_generate_answer`. -/
def fallbackAnswer (ctx : String) : String :=
  "Based on the available ontology context, here is the most relevant information:\n\n"
    ++ ctx
    ++ "\n\nThis answer is generated without an LLM due to missing credentials."

/-- `str.strip()`. -/
def pyStrip (s : String) : String :=
  String.mk (((s.data.dropWhile isPySpace).reverse.dropWhile isPySpace).reverse)

/-- `_generate_answer`: fixed message on empty context, the stripped LLM
output when the chain exists and its call succeeds, otherwise the
concatenated-context fallback. -/
def generateAnswer {E : Type} (llmConfigured : Bool) (llmOutcome : Except E String)
    (topResults : List SearchResult) : String :=
  if topResults = [] then noInfoMsg
  else if llmConfigured then
    match llmOutcome with
    | .ok txt => pyStrip txt
    | .error _ => fallbackAnswer (contextJoin topResults)
  else fallbackAnswer (contextJoin topResults)

/-- The `SourceChunk` built from one result (`metadata` is always `{}`, see
`SourceChunk`). -/
def mkSourceChunk (r : SearchResult) : SourceChunk :=
  { ontology_id := r.ontology_id, version := r.version,
    content := r.content, metadata := [] }

/-- `RetrievalService.answer_query`: hybrid search, rerank, take the top 5,
generate, and assemble the response. -/
def answerQuery {E1 E2 E3 : Type}
    (searchOutcome : Except E1 (List (String × List SearchResult)))
    (className : String) (cohereConfigured : Bool)
    (rerankOutcome : Except E2 (List Nat))
    (llmConfigured : Bool) (llmOutcome : Except E3 String) : QueryResponse :=
  if hybridSearch searchOutcome className = [] then
    { answer := noInfoMsg, sources := [] }
  else
    { answer := generateAnswer llmConfigured llmOutcome
        ((rerank cohereConfigured rerankOutcome
          (hybridSearch searchOutcome className)).take 5),
      sources := ((rerank cohereConfigured rerankOutcome
          (hybridSearch searchOutcome className)).take 5).map mkSourceChunk }

/-- C7: a raising search provider degrades to the empty result set, and
whenever hybrid search yields zero results — for that or any other reason —
`answer_query` returns exactly the fixed no-information message with an
empty sources list. -/
theorem empty_search_fixed_message :
    (∀ {E1 : Type} (e : E1) (className : String),
      hybridSearch (Except.error e) className = [])
    ∧ (∀ {E1 E2 E3 : Type}
        (searchOutcome : Except E1 (List (String × List SearchResult)))
        (className : String) (cohereConfigured : Bool)
        (rerankOutcome : Except E2 (List Nat))
        (llmConfigured : Bool) (llmOutcome : Except E3 String),
        hybridSearch searchOutcome className = [] →
        answerQuery searchOutcome className cohereConfigured rerankOutcome
            llmConfigured llmOutcome
          = { answer := noInfoMsg, sources := [] }) := by
  refine ⟨fun _ _ => rfl, ?_⟩
  intro E1 E2 E3 searchOutcome className cohereConfigured rerankOutcome
    llmConfigured llmOutcome hempty
  rw [answerQuery]
  simp [hempty]

/-- Witness for `empty_search_fixed_message` at a concrete raising search
provider. -/
theorem empty_search_fixed_message_witness :
    hybridSearch (Except.error 3 : Except Nat (List (String × List SearchResult)))
        "OntologyChunk" = []
    ∧ answerQuery (Except.error 3 : Except Nat (List (String × List SearchResult)))
        "OntologyChunk" true (Except.error 4 : Except Nat (List Nat)) true
        (Except.error 5 : Except Nat String)
      = { answer := noInfoMsg, sources := [] } :=
  ⟨empty_search_fixed_message.1 3 "OntologyChunk",
   empty_search_fixed_message.2 (Except.error 3) "OntologyChunk" true
     (Except.error 4) true (Except.error 5)
     (empty_search_fixed_message.1 3 "OntologyChunk")⟩

theorem fallbackAnswer_ne_empty (ctx : String) : fallbackAnswer ctx ≠ "" := by
  intro h
  have hlen := congrArg String.length h
  rw [fallbackAnswer, String.length_append, String.length_append] at hlen
  have h1 : (0 : Nat) <
      ("Based on the available ontology context, here is the most relevant information:\n\n").length := by
    decide
  have h0 : ("" : String).length = 0 := rfl
  omega

theorem generateAnswer_fallback_ne_empty {E3 : Type} (llmConfigured : Bool)
    (llmOutcome : Except E3 String) (top : List SearchResult) (hne : top ≠ [])
    (hdeg : llmConfigured = false ∨ ∃ e3, llmOutcome = Except.error e3) :
    generateAnswer llmConfigured llmOutcome top ≠ "" := by
  unfold generateAnswer
  rw [if_neg hne]
  rcases hdeg with hcc | ⟨e3, he3⟩
  · rw [hcc]
    simp only [Bool.false_eq_true, if_false]
    exact fallbackAnswer_ne_empty _
  · rw [he3]
    by_cases hllm : llmConfigured = true
    · rw [if_pos hllm]
      exact fallbackAnswer_ne_empty _
    · rw [if_neg hllm]
      exact fallbackAnswer_ne_empty _

/-- C8: the rerank stage only reorders — every element of its output is an
element of the input list, unchanged; when the provider is unconfigured or
its call raises, the original ordering is returned unmodified; and under a
raising reranker, `answer_query` still answers from the top 5 results in
original search order, the answer being non-empty whenever generation is in
one of its own degradation modes (no LLM configured, or the LLM call
raising). -/
theorem rerank_graceful_degradation :
    (∀ {E2 : Type} (cohereConfigured : Bool) (outcome : Except E2 (List Nat))
        (docs : List SearchResult),
      ∀ r ∈ rerank cohereConfigured outcome docs, r ∈ docs)
    ∧ (∀ {E2 : Type} (e : E2) (docs : List SearchResult),
        rerank true (Except.error e) docs = docs)
    ∧ (∀ {E2 : Type} (outcome : Except E2 (List Nat)) (docs : List SearchResult),
        rerank false outcome docs = docs)
    ∧ (∀ {E1 E2 E3 : Type}
        (searchOutcome : Except E1 (List (String × List SearchResult)))
        (className : String) (e2 : E2)
        (llmConfigured : Bool) (llmOutcome : Except E3 String),
        hybridSearch searchOutcome className ≠ [] →
        (answerQuery searchOutcome className true (Except.error e2)
            llmConfigured llmOutcome).sources
          = ((hybridSearch searchOutcome className).take 5).map mkSourceChunk
        ∧ ((llmConfigured = false ∨ ∃ e3, llmOutcome = Except.error e3) →
            (answerQuery searchOutcome className true (Except.error e2)
              llmConfigured llmOutcome).answer ≠ "")) := by
  refine ⟨?_, fun _ _ => rfl, fun _ _ => rfl, ?_⟩
  · intro E2 cohereConfigured outcome docs r hr
    unfold rerank at hr
    by_cases hcc : cohereConfigured = false
    · rw [if_pos hcc] at hr
      exact hr
    · rw [if_neg hcc] at hr
      rcases outcome with e | idxs
      · exact hr
      · have hr' : r ∈ (if idxs.all (fun k => k < docs.length) then
            idxs.map (fun k => docs.getD k default) else docs) := hr
        by_cases hall : idxs.all (fun k => k < docs.length)
        · rw [if_pos hall] at hr'
          rcases List.mem_map.1 hr' with ⟨k, hk, rfl⟩
          have hklt : k < docs.length := by
            have := List.all_eq_true.mp hall k hk
            exact of_decide_eq_true this
          rw [List.getD_eq_getElem docs default hklt]
          exact List.getElem_mem hklt
        · rw [if_neg hall] at hr'
          exact hr' 
  · intro E1 E2 E3 searchOutcome className e2 llmConfigured llmOutcome hne
    have hrr : rerank true (Except.error e2) (hybridSearch searchOutcome className)
        = hybridSearch searchOutcome className := rfl
    constructor
    · rw [answerQuery, if_neg hne, hrr]
    · intro hdeg
      rw [answerQuery, if_neg hne, hrr]
      refine generateAnswer_fallback_ne_empty llmConfigured llmOutcome _ ?_ hdeg
      rw [Ne, List.take_eq_nil_iff]
      rintro (h5 | hnil)
      · cases h5
      · exact hne hnil

/-- Witness for `rerank_graceful_degradation` on a concrete two-hit search
response with a raising reranker and no LLM. -/
theorem rerank_graceful_degradation_witness :
    (⟨"b", "o", "v"⟩ : SearchResult) ∈
        [(⟨"a", "o", "v"⟩ : SearchResult), ⟨"b", "o", "v"⟩]
    ∧ rerank true (Except.error 3 : Except Nat (List Nat))
        [(⟨"a", "o", "v"⟩ : SearchResult)] = [⟨"a", "o", "v"⟩]
    ∧ ((answerQuery
          (Except.ok [("OntologyChunk", [⟨"a", "o", "v"⟩, ⟨"b", "o", "v"⟩])]
            : Except Nat (List (String × List SearchResult)))
          "OntologyChunk" true (Except.error 3 : Except Nat (List Nat)) false
          (Except.error 5 : Except Nat String)).sources
        = ((hybridSearch
            (Except.ok [("OntologyChunk", [⟨"a", "o", "v"⟩, ⟨"b", "o", "v"⟩])]
              : Except Nat (List (String × List SearchResult)))
            "OntologyChunk").take 5).map mkSourceChunk
      ∧ (answerQuery
          (Except.ok [("OntologyChunk", [⟨"a", "o", "v"⟩, ⟨"b", "o", "v"⟩])]
            : Except Nat (List (String × List SearchResult)))
          "OntologyChunk" true (Except.error 3 : Except Nat (List Nat)) false
          (Except.error 5 : Except Nat String)).answer ≠ "") :=
  ⟨rerank_graceful_degradation.1 true (Except.ok [1, 0] : Except Nat (List Nat))
      [⟨"a", "o", "v"⟩, ⟨"b", "o", "v"⟩] ⟨"b", "o", "v"⟩ (by decide),
   rerank_graceful_degradation.2.1 3 [⟨"a", "o", "v"⟩],
   (rerank_graceful_degradation.2.2.2
      (Except.ok [("OntologyChunk", [⟨"a", "o", "v"⟩, ⟨"b", "o", "v"⟩])])
      "OntologyChunk" 3 false (Except.error 5) (by decide)).1,
   ((rerank_graceful_degradation.2.2.2
      (Except.ok [("OntologyChunk", [⟨"a", "o", "v"⟩, ⟨"b", "o", "v"⟩])])
      "OntologyChunk" 3 false (Except.error 5) (by decide)).2 (Or.inl rfl))⟩

/-! ### OntologySyncService
(src/app/services/ontology_sync_service.py, lines 84-168) -/

/-- The catalog record driving one sync decision (`OntoPortalClient`'s
`OntologyRecord`). -/
structure OntologyRecord where
  acronym : String
  name : String
  submission_id : Nat
  version : String
  download_url : String
deriving DecidableEq, Repr

/-- `_get_current_version`: a raising weaviate query returns `None`; so
does an empty entry list; otherwise the first entry's optional `version`
value. -/
def getCurrentVersion {E : Type}
    (queryOutcome : Except E (List (String × List (List (String × String)))))
    (className : String) : Option String :=
  match queryOutcome with
  | .error _ => none
  | .ok getSection =>
    match (alookupG className getSection).getD [] with
    | [] => none
    | entry :: _ => alookup "version" entry

/-- The decision record of `_process_ontology` (the dispatched task's
`is_update` flag together with the job dict fields). -/
structure QueuedJob where
  ontology_id : String
  version : String
  is_update : Bool
deriving DecidableEq, Repr

/-- `_process_ontology`: skip when the indexed version equals the record's
version, otherwise dispatch with `is_update = (existing_version is not
None)`. -/
def processOntology {E : Type}
    (queryOutcome : Except E (List (String × List (List (String × String)))))
    (className : String) (rec : OntologyRecord) : Option QueuedJob :=
  if getCurrentVersion queryOutcome className = some rec.version then none
  else
    some { ontology_id := rec.acronym, version := rec.version,
           is_update := (getCurrentVersion queryOutcome className).isSome }

/-- C10: when the version-lookup query raises, `_get_current_version`
returns `None` — indistinguishable from "not yet indexed" — so
`_process_ontology` always dispatches the ontology as a fresh insert with
`is_update = false` (skipping the prior-record deletion contract), whatever
records already exist in the store. -/
theorem sync_query_error_dispatches_fresh_insert :
    ∀ {E : Type} (e : E) (className : String) (rec : OntologyRecord),
      getCurrentVersion (Except.error e : Except E _) className = none
      ∧ processOntology (Except.error e) className rec
          = some { ontology_id := rec.acronym, version := rec.version,
                   is_update := false } := by
  intro E e className rec
  refine ⟨rfl, ?_⟩
  rw [processOntology]
  simp [getCurrentVersion]

/-! ### OntologySanitizer — the regex rewrites
(src/app/services/ontology_sanitizer.py, lines 163-251)

The three `re.sub` rewrites of `LiteralTruncationStep` and
`LanguageTagFixStep` are modelled as executable left-to-right scanners over
character lists.  Each scanner advances one character on a failed match and
jumps past a successful match, exactly as `re.sub` does; the
greedy/lazy quantifier semantics of each pattern collapse to the
deterministic parses implemented here (argued in each doc comment). -/

/-- The fixed placeholder of `LiteralTruncationStep`. -/
def placeholderL : List Char := "[literal trimmed for sanitation]".data

/-- The literal length threshold `MAX_LITERAL_CHARS`. -/
def maxLiteralChars : Nat := 5000

/-- Locate the first occurrence of the triple quote `qqq` in `l`: returns
the content before it and the remainder after it.  This is lazy `(.*?)`
matching: the shortest content whose end is followed by the closing
delimiter. -/
def findTriple (q : Char) : List Char → Option (List Char × List Char)
  | [] => none
  | c :: cs =>
    if (c :: cs).take 3 = [q, q, q] then some ([], cs.drop 2)
    else
      match findTriple q cs with
      | some (content, rest) => some (c :: content, rest)
      | none => none

theorem findTriple_rest_length {q : Char} :
    ∀ {l content rest : List Char}, findTriple q l = some (content, rest) →
      rest.length < l.length
  | [], content, rest, h => by rw [findTriple] at h; cases h
  | c :: cs, content, rest, h => by
    rw [findTriple] at h
    by_cases h3 : (c :: cs).take 3 = [q, q, q]
    · rw [if_pos h3] at h
      injection h with h'
      injection h' with h1 h2
      subst h2
      have hd2 : (cs.drop 2).length ≤ cs.length := by
        rw [List.length_drop]
        omega
      simp only [List.length_cons]
      omega
    · rw [if_neg h3] at h
      rcases hrec : findTriple q cs with _ | ⟨content2, rest2⟩
      · rw [hrec] at h
        cases h
      · rw [hrec] at h
        injection h with h'
        injection h' with h1 h2
        subst h2
        have := findTriple_rest_length hrec
        simp only [List.length_cons]
        omega

/-- `re.sub` of the DOTALL lazy pattern `qqq(.*?)qqq` with the
length-gated replacer of `LiteralTruncationStep`: at each triple delimiter,
the shortest delimited content is replaced by the placeholder exactly when
it exceeds the threshold, scanning resuming after the match; everything
else is copied. -/
def tripleScanT (max : Nat) (q : Char) : List Char → List Char
  | [] => []
  | c :: cs =>
    if (c :: cs).take 3 = [q, q, q] then
      match hft : findTriple q (cs.drop 2) with
      | some (content, rest) =>
        (if content.length > max then [q, q, q] ++ placeholderL ++ [q, q, q]
         else [q, q, q] ++ content ++ [q, q, q]) ++ tripleScanT max q rest
      | none => c :: tripleScanT max q cs
    else c :: tripleScanT max q cs
  termination_by l => l.length
  decreasing_by
    · have := findTriple_rest_length hft
      have h2 : (cs.drop 2).length ≤ cs.length := by
        rw [List.length_drop]
        omega
      simp only [List.length_cons]
      omega
    · simp
    · simp

/-- The character class `[^"\r\n]` of the long-single-line-literal
pattern. -/
def isRunChar (c : Char) : Bool := c ≠ '"' && c ≠ '\r' && c ≠ '\n'

/-- `re.sub` of `"([^"\r\n]{5000,})"` with the length-gated replacer: a
quote followed by a maximal run of at least 5000 run-characters closed by a
quote is a match (the greedy quantifier backtracks only onto run
characters, never onto a quote, so a match exists exactly when the maximal
run is closed by a quote); content exceeding the threshold is replaced. -/
def longDoubleScanT (max : Nat) : List Char → List Char
  | [] => []
  | c :: cs =>
    if c = '"' ∧ max ≤ (cs.takeWhile isRunChar).length
        ∧ (cs.drop (cs.takeWhile isRunChar).length).head? = some '"' then
      (if (cs.takeWhile isRunChar).length > max then
        '"' :: placeholderL ++ ['"']
       else '"' :: cs.takeWhile isRunChar ++ ['"'])
        ++ longDoubleScanT max ((cs.drop (cs.takeWhile isRunChar).length).tail)
    else c :: longDoubleScanT max cs
  termination_by l => l.length
  decreasing_by
    · have h1 : (cs.takeWhile isRunChar).length ≤ cs.length :=
        (List.takeWhile_prefix _).length_le
      simp only [List.length_tail, List.length_drop, List.length_cons]
      omega
    · simp

/-- `LiteralTruncationStep`'s full text transformation: triple-double-quote
blocks, then triple-single-quote blocks, then long single-line
double-quoted literals. -/
def truncateLiteralsT (max : Nat) (text : String) : String :=
  String.mk (longDoubleScanT max (tripleScanT max '\'' (tripleScanT max '"' text.data)))

/-- `truncateLiteralsT` at the production threshold `MAX_LITERAL_CHARS`. -/
def truncateLiterals (text : String) : String :=
  truncateLiteralsT maxLiteralChars text

/-- Parse the quoted-literal body `([^"\\]|\\.)*` up to its closing quote:
given the characters after the opening quote, return the body (with escape
pairs intact) and the remainder after the closing quote.  The regex
quantifier is greedy, but backtracking never helps: dropping a trailing
unit leaves the position on a non-quote character, so a match exists
exactly when this maximal escape-aware parse reaches a closing quote. -/
def qsContent : List Char → Option (List Char × List Char)
  | [] => none
  | c :: cs =>
    if c = '"' then some ([], cs)
    else if c = '\\' then
      match cs with
      | [] => none
      | d :: ds =>
        match qsContent ds with
        | some (body, rest) => some (c :: d :: body, rest)
        | none => none
    else
      match qsContent cs with
      | some (body, rest) => some (c :: body, rest)
      | none => none

theorem qsContent_rest_length :
    ∀ {l body rest : List Char}, qsContent l = some (body, rest) →
      rest.length < l.length
  | [], body, rest, h => by rw [qsContent] at h; cases h
  | c :: cs, body, rest, h => by
    rw [qsContent.eq_def] at h
    simp only at h
    by_cases hq : c = '"'
    · rw [if_pos hq] at h
      injection h with h'
      injection h' with h1 h2
      subst h2
      simp
    · rw [if_neg hq] at h
      by_cases hb : c = '\\'
      · rw [if_pos hb] at h
        rcases cs with _ | ⟨d, ds⟩
        · cases h
        · simp only at h
          rcases hrec : qsContent ds with _ | ⟨body2, rest2⟩
          · rw [hrec] at h
            cases h
          · rw [hrec] at h
            injection h with h'
            injection h' with h1 h2
            subst h2
            have := qsContent_rest_length hrec
            simp only [List.length_cons]
            omega
      · rw [if_neg hb] at h
        rcases hrec : qsContent cs with _ | ⟨body2, rest2⟩
        · rw [hrec] at h
          cases h
        · rw [hrec] at h
          injection h with h'
          injection h' with h1 h2
          subst h2
          have := qsContent_rest_length hrec
          simp only [List.length_cons]
          omega

/-- The tag character class `[^\s"<>;]`. -/
def isTagChar (c : Char) : Bool :=
  !(isPySpace c) && c ≠ '"' && c ≠ '<' && c ≠ '>' && c ≠ ';'

/-- ASCII letter. -/
def isAsciiAlpha (c : Char) : Bool := ('a' ≤ c && c ≤ 'z') || ('A' ≤ c && c ≤ 'Z')

/-- ASCII letter or digit. -/
def isAsciiAlnum (c : Char) : Bool := isAsciiAlpha c || ('0' ≤ c && c ≤ '9')

/-- `VALID_TAG.fullmatch`: the pattern `^[a-zA-Z]{1,8}(?:-[a-zA-Z0-9]{1,8})*$`.
Since `-` belongs to neither character class, the backtracking regex match
is equivalent to this check on the `-`-separated segments: a first segment
of 1-8 letters, and every further segment of 1-8 letters-or-digits. -/
def validTag (tag : List Char) : Bool :=
  match splitOnChar '-' tag with
  | [] => false
  | s :: rest =>
    (decide (1 ≤ s.length) && decide (s.length ≤ 8) && s.all isAsciiAlpha)
      && rest.all (fun t =>
          decide (1 ≤ t.length) && decide (t.length ≤ 8) && t.all isAsciiAlnum)

/-- `re.sub` of `("([^"\\]|\\.)*")@([^\s"<>;]+)` with the tag-validating
replacer of `LanguageTagFixStep`: at each quoted literal followed by `@`
and a maximal non-empty run of tag characters, the `@tag` is dropped
exactly when the tag fails `VALID_TAG`; scanning resumes after the
match. -/
def langScan : List Char → List Char
  | [] => []
  | c :: cs =>
    if c = '"' then
      match hqs : qsContent cs with
      | some (body, rest) =>
        match hrest : rest with
        | '@' :: rest2 =>
          if (rest2.takeWhile isTagChar).length = 0 then c :: langScan cs
          else
            (if validTag (rest2.takeWhile isTagChar) then
              '"' :: body ++ '"' :: '@' :: rest2.takeWhile isTagChar
             else '"' :: body ++ ['"'])
              ++ langScan (rest2.drop (rest2.takeWhile isTagChar).length)
        | _ => c :: langScan cs
      | none => c :: langScan cs
    else c :: langScan cs
  termination_by l => l.length
  decreasing_by
    · simp
    · have h1 := qsContent_rest_length hqs
      simp only [List.length_cons] at h1
      simp only [List.length_drop, List.length_cons]
      omega
    · simp
    · simp
    · simp

/-- `LanguageTagFixStep`'s full text transformation. -/
def fixLangTags (text : String) : String := String.mk (langScan text.data)

/-! ### OntologySanitizer — steps and pipeline
(src/app/services/ontology_sanitizer.py, lines 14-160)

The worker file system is an association list path ↦ content (new writes
shadow old entries).  A step takes the file system and a candidate path and
returns either `replaced paths` (the step's `process` returned an iterable)
or `skip` (it raised `SkipSanitizer`, or any other exception, both of which
make `sanitize` keep the original candidate — see lines 49-53). -/

/-- The modelled file system. -/
abbrev SanFS := List (String × String)

/-- `path.read_text()` (decode errors are ignored by the steps, so reading
always yields a string). -/
def readFile (fs : SanFS) (p : String) : String := (alookup p fs).getD ""

/-- `path.write_text(content)`. -/
def writeFile (fs : SanFS) (p : String) (content : String) : SanFS :=
  (p, content) :: fs

/-- Outcome of one sanitizer step on one candidate. -/
inductive StepResult where
  | replaced (paths : List String)
  | skip
deriving DecidableEq, Repr

/-- A sanitizer step. -/
abbrev SanStep := SanFS → String → StepResult × SanFS

/-- `LiteralTruncationStep.process`: only for `.ttl`-suffixed files;
rewrite the text with `truncateLiterals`; signal `SkipSanitizer` when
nothing changed, else write the fixed text next to the input and return
`[fixed, original]`. -/
def literalTruncationProcess (fs : SanFS) (path : String) : StepResult × SanFS :=
  if ".ttl" ∉ lowerSuffixes path then (.skip, fs)
  else if truncateLiterals (readFile fs path) = readFile fs path then (.skip, fs)
  else
    (.replaced [path ++ ".literal", path],
     writeFile fs (path ++ ".literal") (truncateLiterals (readFile fs path)))

/-- `LanguageTagFixStep.process`: only for `.ttl`-suffixed files; rewrite
with `fixLangTags`; `[fixed, original]` only on change. -/
def languageTagFixProcess (fs : SanFS) (path : String) : StepResult × SanFS :=
  if ".ttl" ∉ lowerSuffixes path then (.skip, fs)
  else if fixLangTags (readFile fs path) = readFile fs path then (.skip, fs)
  else
    (.replaced [path ++ ".langfix", path],
     writeFile fs (path ++ ".langfix") (fixLangTags (readFile fs path)))

/-- The configuration and external-subprocess behaviour feeding
`RobotSanitizerStep`: the ROBOT jar is an external tool, so each of its
three invocations is an oracle from the input path to the produced file
content (`none` = the invocation failed or produced no file). -/
structure RobotOracle where
  enabled : Bool
  jarPath : Option String
  jarExists : Bool
  javaAvailable : Bool
  convertOut : String → Option String
  repairOut : String → Option String
  rdfxmlOut : String → Option String

/-- The `generated` list and file writes of `RobotSanitizerStep.process`:
converted turtle appended, repaired turtle inserted in front of it, RDF/XML
form inserted at the very front (each only if its invocation produced a
file; repair only attempted when the converted file exists). -/
def robotGenerated (o : RobotOracle) (fs : SanFS) (path : String) :
    List String × SanFS :=
  let converted := withSuffix path (pathSuffix path ++ ".robot.ttl")
  let repaired := withSuffix converted ".repaired.ttl"
  let rdfxml := withSuffix path (pathSuffix path ++ ".robot.rdf")
  let s1 : List String × SanFS :=
    match o.convertOut path with
    | some ctext => ([converted], writeFile fs converted ctext)
    | none => ([], fs)
  let s2 : List String × SanFS :=
    if s1.1 = [] then s1
    else
      match o.repairOut path with
      | some rtext => (repaired :: s1.1, writeFile s1.2 repaired rtext)
      | none => s1
  match o.rdfxmlOut path with
  | some xtext => (rdfxml :: s2.1, writeFile s2.2 rdfxml xtext)
  | none => s2

/-- `RobotSanitizerStep.process`: skipped unless enabled with a configured,
existing jar and an available Java runtime; otherwise the generated
candidates, with the original appended last, or `SkipSanitizer` when
nothing was generated. -/
def robotProcess (o : RobotOracle) (fs : SanFS) (path : String) :
    StepResult × SanFS :=
  if o.enabled = false then (.skip, fs)
  else
    match o.jarPath with
    | none => (.skip, fs)
    | some _ =>
      if o.jarExists = false then (.skip, fs)
      else if o.javaAvailable = false then (.skip, fs)
      else
        match robotGenerated o fs path with
        | ([], fs3) => (.skip, fs3)
        | (g :: gs, fs3) => (.replaced ((g :: gs) ++ [path]), fs3)

/-- `OntologySanitizer._install_default_steps`: ROBOT, literal truncation,
language-tag fix, in that order. -/
def defaultSteps (o : RobotOracle) : List SanStep :=
  [robotProcess o, literalTruncationProcess, languageTagFixProcess]

/-- The candidate list a step result contributes: the replacement list, or
the unchanged candidate on skip/failure. -/
def stepOutput (r : StepResult) (c : String) : List String :=
  match r with
  | .replaced l => l
  | .skip => [c]

/-- Apply one step to every current candidate, concatenating the outputs
(the inner `for candidate in candidates` loop of `sanitize`). -/
def runStepOn (step : SanStep) (fs : SanFS) : List String → List String × SanFS
  | [] => ([], fs)
  | c :: cs =>
    let r := step fs c
    let rest := runStepOn step r.2 cs
    (stepOutput r.1 c ++ rest.1, rest.2)

/-- Apply the registered steps in order (the outer `for step in self.steps`
loop of `sanitize`). -/
def runSteps : List SanStep → SanFS → List String → List String × SanFS
  | [], fs, cands => (cands, fs)
  | st :: sts, fs, cands =>
    let r := runStepOn st fs cands
    runSteps sts r.2 r.1

/-- The isolated scratch workspace directory of `OntologySanitizer`. -/
def workspacePrefix : String := "ontology-sanitize-ws/"

/-- The workspace copy of the source file made by `_copy_to_workspace`. -/
def workingPath (source : String) : String := workspacePrefix ++ baseName source

/-- `OntologySanitizer.sanitize`: copy the source into the workspace, run
every step over the candidate set, and deduplicate by path preserving
first-seen order. -/
def sanitize (steps : List SanStep) (fs : SanFS) (source : String) :
    List String × SanFS :=
  let fs1 := writeFile fs (workingPath source) (readFile fs source)
  let r := runSteps steps fs1 [workingPath source]
  (dedupKeepFirst r.1, r.2)

/-- The candidate list before deduplication, for stating order
preservation. -/
def sanitizePreDedup (steps : List SanStep) (fs : SanFS) (source : String) :
    List String :=
  (runSteps steps (writeFile fs (workingPath source) (readFile fs source))
    [workingPath source]).1

/-- A step's replacement lists always end with the candidate they were
derived from (repaired variants come first, the pre-repair input last). -/
def inputLast (st : SanStep) : Prop :=
  ∀ fs c l fs2, st fs c = (.replaced l, fs2) → ∃ vs, l = vs ++ [c]

theorem literalTruncation_inputLast : inputLast literalTruncationProcess := by
  intro fs c l fs2 h
  unfold literalTruncationProcess at h
  split_ifs at h
  · exact absurd (congrArg Prod.fst h) (by simp)
  · have := congrArg Prod.fst h
    simp only [StepResult.replaced.injEq] at this
    exact ⟨[c ++ ".literal"], this.symm⟩
  · exact absurd (congrArg Prod.fst h) (by simp)

theorem languageTagFix_inputLast : inputLast languageTagFixProcess := by
  intro fs c l fs2 h
  unfold languageTagFixProcess at h
  split_ifs at h
  · exact absurd (congrArg Prod.fst h) (by simp)
  · have := congrArg Prod.fst h
    simp only [StepResult.replaced.injEq] at this
    exact ⟨[c ++ ".langfix"], this.symm⟩
  · exact absurd (congrArg Prod.fst h) (by simp)

theorem robot_inputLast (o : RobotOracle) : inputLast (robotProcess o) := by
  intro fs c l fs2 h
  unfold robotProcess at h
  by_cases he : o.enabled = false
  · rw [if_pos he] at h
    exact absurd (congrArg Prod.fst h) (by simp)
  · rw [if_neg he] at h
    rcases hjar : o.jarPath with _ | jar
    · rw [hjar] at h
      exact absurd (congrArg Prod.fst h) (by simp)
    · rw [hjar] at h
      simp only at h
      by_cases hj : o.jarExists = false
      · rw [if_pos hj] at h
        exact absurd (congrArg Prod.fst h) (by simp)
      · rw [if_neg hj] at h
        by_cases hv : o.javaAvailable = false
        · rw [if_pos hv] at h
          exact absurd (congrArg Prod.fst h) (by simp)
        · rw [if_neg hv] at h
          rcases hg : robotGenerated o fs c with ⟨gen, fs3⟩
          rcases gen with _ | ⟨g, gs⟩
          · rw [hg] at h
            exact absurd (congrArg Prod.fst h) (by simp)
          · rw [hg] at h
            have := congrArg Prod.fst h
            simp only [StepResult.replaced.injEq] at this
            exact ⟨g :: gs, this.symm⟩

theorem defaultSteps_inputLast (o : RobotOracle) :
    ∀ st ∈ defaultSteps o, inputLast st := by
  intro st hst
  simp only [defaultSteps, List.mem_cons, List.not_mem_nil, or_false] at hst
  rcases hst with rfl | rfl | rfl
  · exact robot_inputLast o
  · exact literalTruncation_inputLast
  · exact languageTagFix_inputLast

theorem stepOutput_facts {st : SanStep} (hst : inputLast st) (fs : SanFS)
    (c : String) :
    (stepOutput (st fs c).1 c).getLast? = some c
    ∧ c ∈ stepOutput (st fs c).1 c := by
  rcases hr : st fs c with ⟨r, fs2⟩
  rcases r with l | _
  · obtain ⟨vs, rfl⟩ := hst fs c l fs2 hr
    refine ⟨?_, ?_⟩
    · simp only [stepOutput]
      exact List.getLast?_concat _
    · simp only [stepOutput]
      exact List.mem_append_right vs (List.mem_singleton_self c)
  · exact ⟨rfl, List.mem_singleton_self c⟩

theorem runStepOn_mem {st : SanStep} (hst : inputLast st) :
    ∀ (cands : List String) (fs : SanFS) (x : String),
      x ∈ cands → x ∈ (runStepOn st fs cands).1
  | [], _, _, hx => absurd hx (List.not_mem_nil _)
  | c :: cs, fs, x, hx => by
    rw [runStepOn]
    rcases List.mem_cons.1 hx with rfl | hx'
    · exact List.mem_append_left _ (stepOutput_facts hst fs x).2
    · exact List.mem_append_right _ (runStepOn_mem hst cs (st fs c).2 x hx')

theorem runStepOn_getLast {st : SanStep} (hst : inputLast st) :
    ∀ (cands : List String) (fs : SanFS) (c : String),
      cands.getLast? = some c →
      (runStepOn st fs cands).1.getLast? = some c
  | [], _, _, hc => by cases hc
  | [x], fs, c, hc => by
    have hxc : x = c := by
      have : some x = some c := hc
      exact Option.some.inj this
    subst hxc
    rw [runStepOn, runStepOn]
    simp only [List.append_nil]
    exact (stepOutput_facts hst fs x).1
  | x :: y :: ys, fs, c, hc => by
    rw [List.getLast?_cons_cons] at hc
    rw [runStepOn]
    have hrec := runStepOn_getLast hst (y :: ys) (st fs x).2 c hc
    have hne : (runStepOn st (st fs x).2 (y :: ys)).1 ≠ [] := by
      intro hnil
      rw [hnil] at hrec
      cases hrec
    rw [List.getLast?_append_of_ne_nil _ hne]
    exact hrec

theorem runSteps_mem :
    ∀ (steps : List SanStep) (fs : SanFS) (cands : List String) (x : String),
      (∀ st ∈ steps, inputLast st) → x ∈ cands → x ∈ (runSteps steps fs cands).1
  | [], _, _, _, _, hx => hx
  | st :: sts, fs, cands, x, hsteps, hx => by
    rw [runSteps]
    exact runSteps_mem sts _ _ x (fun s hs => hsteps s (List.mem_cons_of_mem st hs))
      (runStepOn_mem (hsteps st (List.mem_cons_self st sts)) cands fs x hx)

theorem runSteps_getLast :
    ∀ (steps : List SanStep) (fs : SanFS) (cands : List String) (c : String),
      (∀ st ∈ steps, inputLast st) → cands.getLast? = some c →
      (runSteps steps fs cands).1.getLast? = some c
  | [], _, _, _, _, hc => hc
  | st :: sts, fs, cands, c, hsteps, hc => by
    rw [runSteps]
    exact runSteps_getLast sts _ _ c (fun s hs => hsteps s (List.mem_cons_of_mem st hs))
      (runStepOn_getLast (hsteps st (List.mem_cons_self st sts)) cands fs c hc)

/-- C2: for every source file and every configuration/behaviour of the
ROBOT tool, the candidate list returned by `sanitize` with the three
default steps (a) contains the unmodified original (the workspace copy of
the source), (b) is deduplicated by path, (c) preserves discovery order (it
is the first-occurrence sublist of the pre-dedup candidate sequence,
keeping every discovered path), (d) each step's replacement lists place
every repaired variant before the pre-repair input they derive from (the
input is the last element), and consequently the pre-dedup sequence ends
with the unmodified original. -/
theorem sanitize_default_steps_sound (o : RobotOracle) (fs : SanFS) (source : String) :
    workingPath source ∈ (sanitize (defaultSteps o) fs source).1
    ∧ (sanitize (defaultSteps o) fs source).1.Nodup
    ∧ (sanitize (defaultSteps o) fs source).1.Sublist
        (sanitizePreDedup (defaultSteps o) fs source)
    ∧ (∀ c ∈ sanitizePreDedup (defaultSteps o) fs source,
        c ∈ (sanitize (defaultSteps o) fs source).1)
    ∧ (sanitizePreDedup (defaultSteps o) fs source).getLast?
        = some (workingPath source)
    ∧ (∀ st ∈ defaultSteps o, ∀ fs2 c l fs3,
        st fs2 c = (StepResult.replaced l, fs3) → ∃ vs, l = vs ++ [c]) := by
  have hsteps := defaultSteps_inputLast o
  have hpre : workingPath source ∈ sanitizePreDedup (defaultSteps o) fs source :=
    runSteps_mem _ _ _ _ hsteps (List.mem_singleton_self _)
  have hs1 : (sanitize (defaultSteps o) fs source).1
      = dedupKeepFirst (sanitizePreDedup (defaultSteps o) fs source) := rfl
  refine ⟨?_, ?_, ?_, ?_, ?_, fun st hst => hsteps st hst⟩
  · rw [hs1, mem_dedupKeepFirst]
    exact hpre
  · rw [hs1]
    exact nodup_dedupKeepFirst _
  · rw [hs1]
    exact sublist_dedupKeepFirst _
  · intro c hc
    rw [hs1, mem_dedupKeepFirst]
    exact hc
  · exact runSteps_getLast _ _ _ _ hsteps rfl

/-- Witness for `sanitize_default_steps_sound`: a concrete source file
under a fully-enabled ROBOT oracle; the workspace copy is in the result,
and the ROBOT step's concrete replacement list ends with its input. -/
theorem sanitize_default_steps_sound_witness :
    workingPath "src/onto.ttl"
      ∈ (sanitize
          (defaultSteps ⟨true, some "robot.jar", true, true,
            fun _ => some "c", fun _ => some "r", fun _ => some "x"⟩)
          [("src/onto.ttl", "content")] "src/onto.ttl").1
    ∧ (∃ vs, ["a.owl.robot.rdf", "a.owl.robot.repaired.ttl",
        "a.owl.robot.ttl", "a.owl"] = vs ++ ["a.owl"]) :=
  ⟨(sanitize_default_steps_sound
      ⟨true, some "robot.jar", true, true,
        fun _ => some "c", fun _ => some "r", fun _ => some "x"⟩
      [("src/onto.ttl", "content")] "src/onto.ttl").1,
   (sanitize_default_steps_sound
      ⟨true, some "robot.jar", true, true,
        fun _ => some "c", fun _ => some "r", fun _ => some "x"⟩
      [("src/onto.ttl", "content")] "src/onto.ttl").2.2.2.2.2
     (robotProcess ⟨true, some "robot.jar", true, true,
        fun _ => some "c", fun _ => some "r", fun _ => some "x"⟩)
     (List.mem_cons_self _ _) [] "a.owl"
     ["a.owl.robot.rdf", "a.owl.robot.repaired.ttl", "a.owl.robot.ttl", "a.owl"]
     [("a.owl.robot.rdf", "x"), ("a.owl.robot.repaired.ttl", "r"),
      ("a.owl.robot.ttl", "c")]
     (by decide)⟩

/-! ### Scanner lemmas for the literal-truncation and language-tag claims -/

theorem take_three_ne_of_head_ne {a q : Char} {l : List Char} (ha : a ≠ q) :
    (a :: l).take 3 ≠ [q, q, q] := by
  intro h
  rw [List.take_succ_cons] at h
  exact ha (List.head_eq_of_cons_eq h)

theorem tripleScanT_nil (max : Nat) (q : Char) : tripleScanT max q [] = [] := by
  rw [tripleScanT]

theorem tripleScanT_clean_pre (max : Nat) (q : Char) :
    ∀ (m r : List Char), (∀ ch ∈ m, ch ≠ q) →
      tripleScanT max q (m ++ r) = m ++ tripleScanT max q r
  | [], r, _ => rfl
  | a :: ms, r, hm => by
    rw [List.cons_append, tripleScanT,
      if_neg (take_three_ne_of_head_ne (hm a (List.mem_cons_self a ms)))]
    rw [tripleScanT_clean_pre max q ms r
      (fun ch hch => hm ch (List.mem_cons_of_mem a hch))]
    rfl

theorem tripleScanT_all_clean (max : Nat) (q : Char) (l : List Char)
    (hl : ∀ ch ∈ l, ch ≠ q) : tripleScanT max q l = l := by
  have := tripleScanT_clean_pre max q l [] hl
  rwa [List.append_nil, tripleScanT_nil, List.append_nil] at this

theorem findTriple_clean (q : Char) :
    ∀ (m r : List Char), (∀ ch ∈ m, ch ≠ q) →
      findTriple q (m ++ [q, q, q] ++ r) = some (m, r)
  | [], r, _ => by
    have harg : ([q, q, q] ++ r : List Char) = q :: (q :: (q :: r)) := rfl
    rw [List.nil_append, harg, findTriple, if_pos (by rw [List.take_succ_cons,
      List.take_succ_cons, List.take_succ_cons, List.take_zero])]
    simp
  | a :: ms, r, hm => by
    rw [List.cons_append, List.cons_append, findTriple,
      if_neg (take_three_ne_of_head_ne (hm a (List.mem_cons_self a ms)))]
    have := findTriple_clean q ms r (fun ch hch => hm ch (List.mem_cons_of_mem a hch))
    rw [List.append_assoc] at this ⊢
    rw [this]

theorem tripleScanT_wrapped (max : Nat) (q : Char) (c : List Char)
    (hc : ∀ ch ∈ c, ch ≠ q) :
    tripleScanT max q ([q, q, q] ++ c ++ [q, q, q])
      = if c.length > max then [q, q, q] ++ placeholderL ++ [q, q, q]
        else [q, q, q] ++ c ++ [q, q, q] := by
  have harg : [q, q, q] ++ c ++ [q, q, q] = q :: (q :: q :: (c ++ [q, q, q])) := by
    simp
  rw [harg, tripleScanT, if_pos (by rw [List.take_succ_cons, List.take_succ_cons,
    List.take_succ_cons, List.take_zero])]
  have hdrop : (q :: q :: (c ++ [q, q, q])).drop 2 = c ++ [q, q, q] := rfl
  have hft : findTriple q ((q :: q :: (c ++ [q, q, q])).drop 2) = some (c, []) := by
    rw [hdrop]
    have := findTriple_clean q c [] hc
    rwa [List.append_nil] at this
  rw [hft]
  simp only [tripleScanT_nil, List.append_nil]
  split <;> simp

theorem longDoubleScanT_nil (max : Nat) : longDoubleScanT max [] = [] := by
  rw [longDoubleScanT]

theorem longDoubleScanT_clean_pre (max : Nat) :
    ∀ (m r : List Char), (∀ ch ∈ m, ch ≠ '"') →
      longDoubleScanT max (m ++ r) = m ++ longDoubleScanT max r
  | [], r, _ => rfl
  | a :: ms, r, hm => by
    rw [List.cons_append, longDoubleScanT,
      if_neg (by
        rintro ⟨ha, -⟩
        exact hm a (List.mem_cons_self a ms) ha)]
    rw [longDoubleScanT_clean_pre max ms r
      (fun ch hch => hm ch (List.mem_cons_of_mem a hch))]
    rfl

theorem takeWhile_all_append (p : Char → Bool) :
    ∀ (m r : List Char), (∀ x ∈ m, p x = true) →
      (m ++ r).takeWhile p = m ++ r.takeWhile p
  | [], r, _ => rfl
  | a :: ms, r, hm => by
    rw [List.cons_append, List.takeWhile_cons, if_pos (hm a (List.mem_cons_self a ms)),
      takeWhile_all_append p ms r (fun x hx => hm x (List.mem_cons_of_mem a hx))]
    rfl

theorem dropWhile_head_not {p : Char → Bool} :
    ∀ {m : List Char} {h0 : Char} {t : List Char},
      m.dropWhile p = h0 :: t → p h0 = false ∧ h0 ∈ m
  | [], h0, t, h => by cases h
  | a :: ms, h0, t, h => by
    rw [List.dropWhile_cons] at h
    by_cases hpa : p a = true
    · rw [if_pos hpa] at h
      obtain ⟨h1, h2⟩ := dropWhile_head_not h
      exact ⟨h1, List.mem_cons_of_mem a h2⟩
    · rw [if_neg hpa] at h
      injection h with ha ht
      subst ha
      exact ⟨by simpa using hpa, List.mem_cons_self a ms⟩

theorem dropWhile_append_of_bad :
    ∀ (p : Char → Bool) (m r : List Char), m.dropWhile p ≠ [] →
      (m ++ r).dropWhile p = m.dropWhile p ++ r
  | p, [], r, hne => absurd rfl hne
  | p, a :: ms, r, hne => by
    rw [List.cons_append, List.dropWhile_cons, List.dropWhile_cons]
    by_cases hpa : p a = true
    · rw [if_pos hpa, if_pos hpa]
      rw [List.dropWhile_cons, if_pos hpa] at hne
      exact dropWhile_append_of_bad p ms r hne
    · rw [if_neg hpa, if_neg hpa, List.cons_append]

theorem drop_length_takeWhile_eq_dropWhile (p : Char → Bool) :
    ∀ (l : List Char), l.drop (l.takeWhile p).length = l.dropWhile p
  | [] => rfl
  | a :: l => by
    rw [List.takeWhile_cons, List.dropWhile_cons]
    by_cases hpa : p a = true
    · rw [if_pos hpa, if_pos hpa, List.length_cons, List.drop_succ_cons,
        drop_length_takeWhile_eq_dropWhile p l]
    · rw [if_neg hpa, if_neg hpa, List.length_nil, List.drop_zero]

theorem isRunChar_spec {ch : Char} (h : isRunChar ch = true) :
    ch ≠ '"' ∧ ch ≠ '\r' ∧ ch ≠ '\n' := by
  rw [isRunChar] at h
  simp only [Bool.and_eq_true, decide_eq_true_eq, ne_eq] at h
  exact ⟨h.1.1, h.1.2, h.2⟩

theorem longDoubleScanT_single_quote (max : Nat) (hmax : 0 < max) :
    longDoubleScanT max ['"'] = ['"'] := by
  rw [longDoubleScanT, if_neg (by
    rintro ⟨-, h2, -⟩
    simp only [List.takeWhile_nil, List.length_nil] at h2
    omega)]
  rw [longDoubleScanT_nil]

theorem longDoubleScanT_two_quotes (max : Nat) (hmax : 0 < max) :
    longDoubleScanT max ['"', '"'] = ['"', '"'] := by
  rw [longDoubleScanT, if_neg (by
    rintro ⟨-, h2, -⟩
    have : (['"'].takeWhile isRunChar) = [] := rfl
    rw [this] at h2
    simp only [List.length_nil] at h2
    omega)]
  rw [longDoubleScanT_single_quote max hmax]

theorem longDoubleScanT_three_quotes (max : Nat) (hmax : 0 < max) :
    longDoubleScanT max ['"', '"', '"'] = ['"', '"', '"'] := by
  rw [longDoubleScanT, if_neg (by
    rintro ⟨-, h2, -⟩
    have : (['"', '"'].takeWhile isRunChar) = [] := rfl
    rw [this] at h2
    simp only [List.length_nil] at h2
    omega)]
  rw [longDoubleScanT_two_quotes max hmax]

theorem longDoubleScanT_quoted (max : Nat) (hmax : 0 < max) (c : List Char)
    (hc : ∀ ch ∈ c, isRunChar ch = true) :
    longDoubleScanT max ('"' :: (c ++ ['"']))
      = if c.length > max then '"' :: (placeholderL ++ ['"'])
        else '"' :: (c ++ ['"']) := by
  have hrun : (c ++ ['"']).takeWhile isRunChar = c := by
    rw [takeWhile_all_append isRunChar c ['"'] hc]
    have h1 : (['"'] : List Char).takeWhile isRunChar = [] := rfl
    rw [h1, List.append_nil]
  by_cases hlen : max ≤ c.length
  · rw [longDoubleScanT, if_pos (by
      refine ⟨rfl, ?_, ?_⟩
      · rw [hrun]
        exact hlen
      · rw [hrun, List.drop_left c ['"']]
        rfl)]
    rw [hrun, List.drop_left c ['"']]
    have htail : (['"'] : List Char).tail = [] := rfl
    rw [htail, longDoubleScanT_nil, List.append_nil]
    split <;> rfl
  · rw [if_neg (by omega)]
    rw [longDoubleScanT, if_neg (by
      rintro ⟨-, h2, -⟩
      rw [hrun] at h2
      omega)]
    rw [longDoubleScanT_clean_pre max c ['"']
      (fun ch hch => (isRunChar_spec (hc ch hch)).1)]
    rw [longDoubleScanT_single_quote max hmax]

theorem longDoubleScanT_tripleWrapped (max : Nat) (hmax : 0 < max)
    (m : List Char) (hm : ∀ ch ∈ m, ch ≠ '"') (hlen : m.length ≤ max) :
    longDoubleScanT max (['"', '"', '"'] ++ m ++ ['"', '"', '"'])
      = ['"', '"', '"'] ++ m ++ ['"', '"', '"'] := by
  have harg : ['"', '"', '"'] ++ m ++ ['"', '"', '"']
      = '"' :: ('"' :: ('"' :: (m ++ ['"', '"', '"']))) := by simp
  rw [harg]
  rw [longDoubleScanT, if_neg (by
    rintro ⟨-, h2, -⟩
    have h1 : (('"' :: ('"' :: (m ++ ['"', '"', '"']))).takeWhile isRunChar) = [] := rfl
    rw [h1] at h2
    simp only [List.length_nil] at h2
    omega)]
  rw [longDoubleScanT, if_neg (by
    rintro ⟨-, h2, -⟩
    have h1 : (('"' :: (m ++ ['"', '"', '"'])).takeWhile isRunChar) = [] := rfl
    rw [h1] at h2
    simp only [List.length_nil] at h2
    omega)]
  rw [longDoubleScanT]
  by_cases hg : ('"' : Char) = '"'
      ∧ max ≤ ((m ++ ['"', '"', '"']).takeWhile isRunChar).length
      ∧ ((m ++ ['"', '"', '"']).drop
          ((m ++ ['"', '"', '"']).takeWhile isRunChar).length).head? = some '"'
  · rw [if_pos hg]
    obtain ⟨-, hg2, hg3⟩ := hg
    have hallrun : ∀ ch ∈ m, isRunChar ch = true := by
      by_contra hnot
      push_neg at hnot
      obtain ⟨b, hbm, hbrun⟩ := hnot
      have hdne : m.dropWhile isRunChar ≠ [] := by
        intro hnil
        have := List.takeWhile_append_dropWhile (p := isRunChar) (l := m)
        rw [hnil, List.append_nil] at this
        have hbrun2 := List.mem_takeWhile_imp (p := isRunChar) (l := m) (this ▸ hbm)
        rw [hbrun2] at hbrun
        exact hbrun rfl
      rcases hdw : m.dropWhile isRunChar with _ | ⟨h0, t⟩
      · exact hdne hdw
      · obtain ⟨hph0, hh0m⟩ := dropWhile_head_not hdw
        have hdrop2 : (m ++ ['"', '"', '"']).drop
            ((m ++ ['"', '"', '"']).takeWhile isRunChar).length
            = m.dropWhile isRunChar ++ ['"', '"', '"'] := by
          rw [← dropWhile_append_of_bad isRunChar m ['"', '"', '"'] hdne]
          exact drop_length_takeWhile_eq_dropWhile isRunChar _
        rw [hdrop2, hdw] at hg3
        simp only [List.cons_append, List.head?_cons, Option.some.injEq] at hg3
        exact hm h0 hh0m hg3
    have hrun : (m ++ ['"', '"', '"']).takeWhile isRunChar = m := by
      rw [takeWhile_all_append isRunChar m _ hallrun]
      have h1 : (['"', '"', '"'] : List Char).takeWhile isRunChar = [] := rfl
      rw [h1, List.append_nil]
    rw [hrun, List.drop_left m ['"', '"', '"']]
    have htail : (['"', '"', '"'] : List Char).tail = ['"', '"'] := rfl
    rw [htail, if_neg (by omega), longDoubleScanT_two_quotes max hmax]
    simp
  · rw [if_neg hg]
    rw [longDoubleScanT_clean_pre max m ['"', '"', '"'] hm,
      longDoubleScanT_three_quotes max hmax]

theorem qsContent_clean :
    ∀ (s r : List Char), (∀ ch ∈ s, ch ≠ '"' ∧ ch ≠ '\\') →
      qsContent (s ++ '"' :: r) = some (s, r)
  | [], r, _ => by
    rw [List.nil_append, qsContent.eq_def]
    simp
  | a :: ss, r, hs => by
    rw [List.cons_append, qsContent.eq_def]
    simp only
    rw [if_neg (hs a (List.mem_cons_self a ss)).1,
      if_neg (hs a (List.mem_cons_self a ss)).2,
      qsContent_clean ss r (fun ch hch => hs ch (List.mem_cons_of_mem a hch))]

theorem langScan_nil : langScan [] = [] := by rw [langScan]

theorem langScan_literal_tag (s tag : List Char)
    (hs : ∀ ch ∈ s, ch ≠ '"' ∧ ch ≠ '\\')
    (htag : tag ≠ []) (htc : ∀ ch ∈ tag, isTagChar ch = true) :
    langScan ('"' :: (s ++ '"' :: '@' :: tag))
      = if validTag tag then '"' :: (s ++ '"' :: '@' :: tag)
        else '"' :: (s ++ ['"']) := by
  have htw : tag.takeWhile isTagChar = tag := by
    have := takeWhile_all_append isTagChar tag [] htc
    rwa [List.append_nil, List.takeWhile_nil, List.append_nil] at this
  have hq := qsContent_clean s ('@' :: tag) hs
  rw [langScan, if_pos rfl]
  split
  next content rest h1 =>
    rw [hq] at h1
    injection h1 with h1'
    injection h1' with hcontent hrest
    subst hcontent
    subst hrest
    simp only
    rw [htw, if_neg (by simpa using htag), List.drop_length, langScan_nil,
      List.append_nil]
    split
    · simp
    · simp
  next h1 =>
    rw [hq] at h1
    cases h1

theorem tripleScanT_single (max : Nat) (q a : Char) :
    tripleScanT max q [a] = [a] := by
  rw [tripleScanT, if_neg (by
    intro h
    have := congrArg List.length h
    simp at this)]
  rw [tripleScanT_nil]

theorem tripleScanT_double_wrap (max : Nat) (c : List Char)
    (hc : ∀ ch ∈ c, ch ≠ '"') :
    tripleScanT max '"' ('"' :: (c ++ ['"'])) = '"' :: (c ++ ['"']) := by
  rw [tripleScanT, if_neg (by
    rcases c with _ | ⟨ch, cs⟩
    · intro h
      have := congrArg List.length h
      simp at this
    · intro h
      rw [List.take_succ_cons, List.cons_append, List.take_succ_cons] at h
      have h2 := List.tail_eq_of_cons_eq h
      exact hc ch (List.mem_cons_self ch cs) (List.head_eq_of_cons_eq h2))]
  rw [tripleScanT_clean_pre max '"' c ['"'] hc, tripleScanT_single]

theorem isRunChar_of_clean {ch : Char} (h1 : ch ≠ '"') (h2 : ch ≠ '\r')
    (h3 : ch ≠ '\n') : isRunChar ch = true := by
  rw [isRunChar]
  simp [h1, h2, h3]

theorem strLength_data (s : String) : s.length = s.data.length := rfl

theorem truncT_double_quoted (max : Nat) (hmax : 0 < max) (c : String)
    (hc : ∀ ch ∈ c.data, ch ≠ '"' ∧ ch ≠ '\'' ∧ ch ≠ '\r' ∧ ch ≠ '\n') :
    truncateLiteralsT max ("\"" ++ c ++ "\"")
      = if c.length > max then "\"" ++ String.mk placeholderL ++ "\""
        else "\"" ++ c ++ "\"" := by
  have hdata : ("\"" ++ c ++ "\"").data = '"' :: (c.data ++ ['"']) := by
    simp [String.data_append]
  rw [truncateLiteralsT, hdata]
  rw [tripleScanT_double_wrap max c.data (fun ch hch => (hc ch hch).1)]
  rw [tripleScanT_all_clean max '\'' _ (by
    intro ch hch
    rcases List.mem_cons.1 hch with rfl | hch2
    · decide
    · rcases List.mem_append.1 hch2 with hin | hin
      · exact (hc ch hin).2.1
      · rcases List.mem_singleton.1 hin with rfl
        decide)]
  rw [longDoubleScanT_quoted max hmax c.data (fun ch hch =>
    isRunChar_of_clean (hc ch hch).1 (hc ch hch).2.2.1 (hc ch hch).2.2.2)]
  rw [strLength_data]
  split
  · apply string_data_inj
    simp [String.data_append]
  · apply string_data_inj
    simp [String.data_append]

theorem placeholder_no_apos : ∀ ch ∈ placeholderL, ch ≠ '\'' := by
  intro ch hch
  have hall : placeholderL.all (fun c => c ≠ '\'') = true := by decide
  exact of_decide_eq_true (List.all_eq_true.mp hall ch hch)

theorem placeholder_no_quote : ∀ ch ∈ placeholderL, ch ≠ '"' := by
  intro ch hch
  have hall : placeholderL.all (fun c => c ≠ '"') = true := by decide
  exact of_decide_eq_true (List.all_eq_true.mp hall ch hch)

theorem truncT_triple_quoted (max : Nat) (hmax : 0 < max)
    (hph : placeholderL.length ≤ max) (c : String)
    (hc : ∀ ch ∈ c.data, ch ≠ '"' ∧ ch ≠ '\'') (hlen : c.length ≤ max) :
    truncateLiteralsT max ("\"\"\"" ++ c ++ "\"\"\"")
      = "\"\"\"" ++ c ++ "\"\"\"" := by
  have hdata : ("\"\"\"" ++ c ++ "\"\"\"").data
      = ['"', '"', '"'] ++ c.data ++ ['"', '"', '"'] := by
    simp [String.data_append]
  rw [truncateLiteralsT, hdata]
  rw [tripleScanT_wrapped max '"' c.data (fun ch hch => (hc ch hch).1)]
  rw [strLength_data] at hlen
  rw [if_neg (by omega)]
  rw [tripleScanT_all_clean max '\'' _ (by
    intro ch hch
    rcases List.mem_append.1 hch with hin | hin
    · rcases List.mem_append.1 hin with hin2 | hin2
      · fin_cases hin2 <;> decide
      · exact (hc ch hin2).2
    · fin_cases hin <;> decide)]
  rw [longDoubleScanT_tripleWrapped max hmax c.data
    (fun ch hch => (hc ch hch).1) (by omega)]
  apply string_data_inj
  simp [String.data_append]

theorem truncT_triple_quoted_long (max : Nat) (hmax : 0 < max)
    (hph : placeholderL.length ≤ max) (c : String)
    (hc : ∀ ch ∈ c.data, ch ≠ '"' ∧ ch ≠ '\'') (hlen : c.length > max) :
    truncateLiteralsT max ("\"\"\"" ++ c ++ "\"\"\"")
      = "\"\"\"" ++ String.mk placeholderL ++ "\"\"\"" := by
  have hdata : ("\"\"\"" ++ c ++ "\"\"\"").data
      = ['"', '"', '"'] ++ c.data ++ ['"', '"', '"'] := by
    simp [String.data_append]
  rw [truncateLiteralsT, hdata]
  rw [tripleScanT_wrapped max '"' c.data (fun ch hch => (hc ch hch).1)]
  rw [strLength_data] at hlen
  rw [if_pos (by omega)]
  rw [tripleScanT_all_clean max '\'' _ (by
    intro ch hch
    rcases List.mem_append.1 hch with hin | hin
    · rcases List.mem_append.1 hin with hin2 | hin2
      · fin_cases hin2 <;> decide
      · exact placeholder_no_apos ch hin2
    · fin_cases hin <;> decide)]
  rw [longDoubleScanT_tripleWrapped max hmax placeholderL (by decide) hph]
  apply string_data_inj
  simp [String.data_append]

/-- C4: `LiteralTruncationStep` applies only to `.ttl`-suffixed files
(otherwise it signals not-applicable); it signals not-applicable exactly
when no literal was altered, and otherwise returns exactly
`[fixed_version, original]` with the fixed text written beside the input;
at the literal level, a single-line double-quoted literal is replaced by
the placeholder exactly when its content exceeds 5000 characters, and a
triple-double-quoted literal is left unchanged at ≤ 5000 characters and
replaced by the placeholder above 5000. -/
theorem literal_truncation_step_correct :
    (∀ (fs : SanFS) (path : String), ".ttl" ∉ lowerSuffixes path →
        literalTruncationProcess fs path = (StepResult.skip, fs))
    ∧ (∀ (fs : SanFS) (path : String),
        truncateLiterals (readFile fs path) = readFile fs path →
        literalTruncationProcess fs path = (StepResult.skip, fs))
    ∧ (∀ (fs : SanFS) (path : String), ".ttl" ∈ lowerSuffixes path →
        truncateLiterals (readFile fs path) ≠ readFile fs path →
        literalTruncationProcess fs path
          = (StepResult.replaced [path ++ ".literal", path],
             writeFile fs (path ++ ".literal") (truncateLiterals (readFile fs path))))
    ∧ (∀ c : String, (∀ ch ∈ c.data, ch ≠ '"' ∧ ch ≠ '\'' ∧ ch ≠ '\r' ∧ ch ≠ '\n') →
        truncateLiterals ("\"" ++ c ++ "\"")
          = if c.length > maxLiteralChars then "\"" ++ String.mk placeholderL ++ "\""
            else "\"" ++ c ++ "\"")
    ∧ (∀ c : String, (∀ ch ∈ c.data, ch ≠ '"' ∧ ch ≠ '\'') →
        c.length ≤ maxLiteralChars →
        truncateLiterals ("\"\"\"" ++ c ++ "\"\"\"") = "\"\"\"" ++ c ++ "\"\"\"")
    ∧ (∀ c : String, (∀ ch ∈ c.data, ch ≠ '"' ∧ ch ≠ '\'') →
        c.length > maxLiteralChars →
        truncateLiterals ("\"\"\"" ++ c ++ "\"\"\"")
          = "\"\"\"" ++ String.mk placeholderL ++ "\"\"\"") := by
  refine ⟨?_, ?_, ?_, ?_, ?_, ?_⟩
  · intro fs path h
    rw [literalTruncationProcess, if_pos h]
  · intro fs path h
    rw [literalTruncationProcess]
    by_cases hsfx : ".ttl" ∉ lowerSuffixes path
    · rw [if_pos hsfx]
    · rw [if_neg hsfx, if_pos h]
  · intro fs path h1 h2
    rw [literalTruncationProcess, if_neg (fun hn => hn h1), if_neg h2]
  · intro c hc
    exact truncT_double_quoted maxLiteralChars (by decide) c hc
  · intro c hc hlen
    exact truncT_triple_quoted maxLiteralChars (by decide) (by decide) c hc hlen
  · intro c hc hlen
    exact truncT_triple_quoted_long maxLiteralChars (by decide) (by decide) c hc hlen

/-- Witness for `literal_truncation_step_correct`: a non-`.ttl` file is
skipped; a 5001-character double-quoted literal is replaced by the
placeholder; a short triple-quoted literal is left unchanged. -/
theorem literal_truncation_step_correct_witness :
    literalTruncationProcess [] "a.owl" = (StepResult.skip, [])
    ∧ truncateLiterals ("\"" ++ String.mk (List.replicate 5001 'a') ++ "\"")
        = "\"" ++ String.mk placeholderL ++ "\""
    ∧ truncateLiterals ("\"\"\"" ++ "short" ++ "\"\"\"")
        = "\"\"\"" ++ "short" ++ "\"\"\"" := by
  refine ⟨literal_truncation_step_correct.1 [] "a.owl" (by decide), ?_, ?_⟩
  · have hch : ∀ ch ∈ (String.mk (List.replicate 5001 'a')).data,
        ch ≠ '"' ∧ ch ≠ '\'' ∧ ch ≠ '\r' ∧ ch ≠ '\n' := by
      intro ch hch
      have := List.eq_of_mem_replicate hch
      subst this
      decide
    have hgt : (String.mk (List.replicate 5001 'a')).length > maxLiteralChars := by
      show maxLiteralChars < (List.replicate 5001 'a').length
      rw [List.length_replicate]
      decide
    exact (literal_truncation_step_correct.2.2.2.1
      (String.mk (List.replicate 5001 'a')) hch).trans (if_pos hgt)
  · exact literal_truncation_step_correct.2.2.2.2.1 "short" (by decide) (by decide)

theorem langScan_clean_pre :
    ∀ (m r : List Char), (∀ ch ∈ m, ch ≠ '"') →
      langScan (m ++ r) = m ++ langScan r
  | [], r, _ => rfl
  | a :: ms, r, hm => by
    rw [List.cons_append, langScan, if_neg (hm a (List.mem_cons_self a ms))]
    rw [langScan_clean_pre ms r (fun ch hch => hm ch (List.mem_cons_of_mem a hch))]
    rfl

/-- C5: `LanguageTagFixStep` applies only to `.ttl`-suffixed files; it
signals not-applicable exactly when no tag was stripped, and otherwise
returns exactly `[fixed_version, original]`; at the literal level, a
language-tagged literal keeps its tag exactly when the tag matches
`^[a-zA-Z]{1,8}(-[a-zA-Z0-9]{1,8})*$` and is demoted to a plain literal
otherwise, while text containing no double quote is never touched. -/
theorem language_tag_step_correct :
    (∀ (fs : SanFS) (path : String), ".ttl" ∉ lowerSuffixes path →
        languageTagFixProcess fs path = (StepResult.skip, fs))
    ∧ (∀ (fs : SanFS) (path : String),
        fixLangTags (readFile fs path) = readFile fs path →
        languageTagFixProcess fs path = (StepResult.skip, fs))
    ∧ (∀ (fs : SanFS) (path : String), ".ttl" ∈ lowerSuffixes path →
        fixLangTags (readFile fs path) ≠ readFile fs path →
        languageTagFixProcess fs path
          = (StepResult.replaced [path ++ ".langfix", path],
             writeFile fs (path ++ ".langfix") (fixLangTags (readFile fs path))))
    ∧ (∀ (s tag : String), (∀ ch ∈ s.data, ch ≠ '"' ∧ ch ≠ '\\') →
        tag.data ≠ [] → (∀ ch ∈ tag.data, isTagChar ch = true) →
        fixLangTags ("\"" ++ s ++ "\"@" ++ tag)
          = if validTag tag.data then "\"" ++ s ++ "\"@" ++ tag
            else "\"" ++ s ++ "\"")
    ∧ (∀ t : String, (∀ ch ∈ t.data, ch ≠ '"') → fixLangTags t = t) := by
  refine ⟨?_, ?_, ?_, ?_, ?_⟩
  · intro fs path h
    rw [languageTagFixProcess, if_pos h]
  · intro fs path h
    rw [languageTagFixProcess]
    by_cases hsfx : ".ttl" ∉ lowerSuffixes path
    · rw [if_pos hsfx]
    · rw [if_neg hsfx, if_pos h]
  · intro fs path h1 h2
    rw [languageTagFixProcess, if_neg (fun hn => hn h1), if_neg h2]
  · intro s tag hs htag htc
    have hdata : ("\"" ++ s ++ "\"@" ++ tag).data
        = '"' :: (s.data ++ '"' :: '@' :: tag.data) := by
      simp [String.data_append]
    rw [fixLangTags, hdata,
      langScan_literal_tag s.data tag.data hs htag htc]
    split
    · apply string_data_inj
      simp [String.data_append]
    · apply string_data_inj
      simp [String.data_append]
  · intro t ht
    have := langScan_clean_pre t.data [] ht
    rw [List.append_nil, langScan_nil, List.append_nil] at this
    rw [fixLangTags, this]

/-- Witness for `language_tag_step_correct`: a non-`.ttl` file is skipped;
`"x"@en` keeps its valid tag; `"x"@12` is demoted to a plain literal;
quote-free text passes through. -/
theorem language_tag_step_correct_witness :
    languageTagFixProcess [] "a.owl" = (StepResult.skip, [])
    ∧ fixLangTags ("\"" ++ "x" ++ "\"@" ++ "en") = "\"" ++ "x" ++ "\"@" ++ "en"
    ∧ fixLangTags ("\"" ++ "x" ++ "\"@" ++ "12") = "\"" ++ "x" ++ "\""
    ∧ fixLangTags "plain text" = "plain text" := by
  refine ⟨language_tag_step_correct.1 [] "a.owl" (by decide), ?_, ?_, ?_⟩
  · exact (language_tag_step_correct.2.2.2.1 "x" "en" (by decide) (by decide)
      (by decide)).trans (if_pos (by decide))
  · exact (language_tag_step_correct.2.2.2.1 "x" "12" (by decide) (by decide)
      (by decide)).trans (if_neg (by decide))
  · exact language_tag_step_correct.2.2.2.2 "plain text" (by decide)

end OntoRag
